import Mathlib

/-!
Verification of the `ovos-document-chunkers` text-chunking library.

The Python sources are shallowly embedded: pure string manipulation is
modelled over `List Char` (Lean `String` is a wrapper around `List Char`),
external collaborators (HTTP fetch, the filesystem, the neural segmentation
backends, `markdown_to_json.dictify`, `quebra_frases` tokenizers) are
oracle parameters, and Python exceptions are modelled with `Option`/`Except`.
Python string primitives (`split`, `strip`, `lower`, `join`, `in`, membership
tests) are re-implemented below with their Python semantics (ASCII case
folding, Python's whitespace set).
-/

namespace Ovos

/-- Python's whitespace set for `str.strip()` / `str.split()` (ASCII part). -/
def pyIsSpace (c : Char) : Bool :=
  c = ' ' || c = '\t' || c = '\n' || c = '\r' || c = '\x0b' || c = '\x0c'

/-- Helper for `str.split()` with no separator: accumulate the current word
(in reverse) and cut at whitespace runs. -/
def wordsAux : List Char → List Char → List (List Char)
  | [], acc => if acc.isEmpty then [] else [acc.reverse]
  | c :: rest, acc =>
    if pyIsSpace c then
      if acc.isEmpty then wordsAux rest [] else acc.reverse :: wordsAux rest []
    else wordsAux rest (c :: acc)

/-- Python `s.split()` (whitespace words) over `List Char`. -/
def pyWordsL (s : List Char) : List (List Char) := wordsAux s []

/-- Python `s.split("\n")` over `List Char`. -/
def splitLinesL : List Char → List (List Char)
  | [] => [[]]
  | c :: rest =>
    if c = '\n' then [] :: splitLinesL rest
    else
      match splitLinesL rest with
      | l :: ls => (c :: l) :: ls
      | [] => [[c]]

/-- Python `sep.join(pieces)` for a one-character separator over `List Char`. -/
def intercalateChL (sep : Char) : List (List Char) → List Char
  | [] => []
  | [x] => x
  | x :: y :: rest => x ++ sep :: intercalateChL sep (y :: rest)

/-- Python `"\n".join(lines)` over `List Char`. -/
def intercalateNlL : List (List Char) → List Char := intercalateChL '\n'

/-- Remove trailing Python-whitespace characters. -/
def dropEndWsL : List Char → List Char
  | [] => []
  | c :: rest =>
    match dropEndWsL rest with
    | [] => if pyIsSpace c then [] else [c]
    | r => c :: r

/-- Python `s.strip()` over `List Char`. -/
def pyStripL (s : List Char) : List Char := dropEndWsL (s.dropWhile pyIsSpace)

/-- Python `s.lower()` over `List Char` (ASCII case folding, as used here). -/
def pyLowerL (s : List Char) : List Char := s.map Char.toLower

/-- Python substring test `pat in hay` over `List Char`. -/
def containsSubL (pat : List Char) : List Char → Bool
  | [] => pat.isEmpty
  | c :: rest => pat.isPrefixOf (c :: rest) || containsSubL pat rest

/-- Python `s.split("\n\n\n")` over `List Char`, as a character automaton:
`acc` is the reversed current component, `p < 3` counts the pending run of
newline characters not yet committed to `acc`.  When a third consecutive
newline arrives the component is cut (Python splits at non-overlapping
leftmost occurrences of the separator). -/
def split3Aux : List Char → List Char → Nat → List (List Char)
  | [], acc, p => [acc.reverse ++ List.replicate p '\n']
  | c :: rest, acc, p =>
    if c = '\n' then
      if p = 2 then acc.reverse :: split3Aux rest [] 0
      else split3Aux rest acc (p + 1)
    else split3Aux rest (c :: (List.replicate p '\n' ++ acc)) 0

/-- Python `s.split("\n\n\n")` over `List Char`. -/
def split3NlL (s : List Char) : List (List Char) := split3Aux s [] 0

/-- String wrapper: Python `s.strip()`. -/
def pyStrip (s : String) : String := ⟨pyStripL s.data⟩

/-- String wrapper: Python `s.lower()`. -/
def pyLower (s : String) : String := ⟨pyLowerL s.data⟩

/-- String wrapper: Python `s.split()`. -/
def pyWords (s : String) : List String := (pyWordsL s.data).map String.mk

/-- String wrapper: Python `s.split("\n")`. -/
def splitLinesS (s : String) : List String := (splitLinesL s.data).map String.mk

/-- String wrapper: Python `pat in hay` substring test. -/
def containsSub (hay pat : String) : Bool := containsSubL pat.data hay.data

/-- String wrapper: Python `s.startswith(pre)`. -/
def pyStartsWith (s pre : String) : Bool := pre.data.isPrefixOf s.data

/-- String wrapper: Python `s.endswith(suf)`. -/
def pyEndsWith (s suf : String) : Bool := suf.data.isSuffixOf s.data

/-!  Backend-model paragraph splitters (`text/paragraphs.py`).

The wtpsplit backends return, for `do_paragraph_segmentation=True`, a
sequence whose elements are either plain text spans or nested sequences of
spans (one inner sequence per detected paragraph).  `SpanOrList` models that
dynamically-typed result element. -/
inductive SpanOrList where
  | span (s : String)
  | nested (l : List String)
deriving DecidableEq

/-- True when a backend-result element is a plain text span (not a `list`). -/
def isFlatSpan : SpanOrList → Bool
  | .span _ => true
  | .nested _ => false

/-- `WtPParagraphSplitter.chunk` (paragraphs.py lines 54-65): iterates the
backend result of `split(data, do_paragraph_segmentation=True)`; a `list`
element is flattened (each inner span yielded), any other element is yielded
as is. -/
def WtPParagraphSplitter_chunk (split : String → List SpanOrList) (data : String) :
    List SpanOrList :=
  (split data).flatMap fun ch =>
    match ch with
    | .nested l => l.map .span
    | .span s => [.span s]

/-- `SaTParagraphSplitter.chunk` (paragraphs.py lines 75-85): plain
`yield from self.splitter.split(data, do_paragraph_segmentation=True)`,
with no flattening of nested results. -/
def SaTParagraphSplitter_chunk (split : String → List SpanOrList) (data : String) :
    List SpanOrList :=
  split data

/-- C1: the WtP paragraph splitter flattens every nested backend result, but
the SaT paragraph splitter passes the backend result through unflattened, so
with a backend that returns one inner sequence per input paragraph the SaT
splitter emits an element that is itself a sequence, contradicting the
claimed flattening guarantee (and the function's own `Iterable[str]`
annotation). -/
theorem wtp_flattens_but_sat_does_not :
    (∀ split data, ((WtPParagraphSplitter_chunk split data).all isFlatSpan) = true) ∧
    ((SaTParagraphSplitter_chunk (fun _ => [.nested ["a", "b"]]) "a\n\nb").all isFlatSpan)
      = false := by
  constructor
  · intro split data
    rw [List.all_eq_true]
    intro x hx
    rw [WtPParagraphSplitter_chunk, List.mem_flatMap] at hx
    rcases hx with ⟨ch, _, hx⟩
    cases ch with
    | span s => simp at hx; subst hx; rfl
    | nested l =>
      simp only [List.mem_map] at hx
      rcases hx with ⟨s, _, rfl⟩
      rfl
  · rfl

/-!  Markdown splitters (`files/markdown.py`).

`markdown_to_json.dictify` is an external collaborator: it parses a Markdown
document into a nested dictionary whose values are sub-dictionaries, lists or
strings.  `MdValue` models that dynamically-typed value; the dictionary and
list spines are given as the mutual inductives `MdEntries`/`MdItems` so every
traversal below is plain structural recursion. -/
mutual

inductive MdValue where
  | dict (entries : MdEntries)
  | list (items : MdItems)
  | str (s : String)

inductive MdEntries where
  | nil
  | cons (key : String) (val : MdValue) (rest : MdEntries)

inductive MdItems where
  | nil
  | cons (val : MdValue) (rest : MdItems)

end

/-- Find the first occurrence of `sep` in a character list, returning the
part before the match and the part after it (Python `str.find` + slicing). -/
def findSubL (sep : List Char) : List Char → Option (List Char × List Char)
  | [] => if sep.isEmpty then some ([], []) else none
  | c :: rest =>
    if sep.isPrefixOf (c :: rest) then some ([], (c :: rest).drop sep.length)
    else
      match findSubL sep rest with
      | some (pre, post) => some (c :: pre, post)
      | none => none

/-- Python `s.split(sep)` for a non-empty separator.  The `fuel` argument is
only a structural-recursion device; every call goes through `splitOnSubL`,
which supplies enough fuel for the recursion (each step consumes at least one
character). -/
def splitOnSubFuel (sep : List Char) : Nat → List Char → List (List Char)
  | 0, s => [s]
  | fuel + 1, s =>
    match findSubL sep s with
    | some (pre, post) => pre :: splitOnSubFuel sep fuel post
    | none => [s]

/-- Python `s.split(sep)` over `List Char` (non-empty `sep`). -/
def splitOnSubL (sep s : List Char) : List (List Char) :=
  splitOnSubFuel sep (s.length + 1) s

/-- Python `s.replace(String.singleton c, "")` over `List Char`. -/
def pyRemoveChar (c : Char) (s : List Char) : List Char :=
  s.filter (fun x => x ≠ c)

/-- `_parse_txt` (markdown.py lines 144-163): strip the leaf text; if it
contains a `</details>` wrapper, split at `</details>` and `<details>`
boundaries, drop bracket characters and empty pieces; otherwise emit the
single bracket-stripped chunk under the given key. -/
def parseTxt (k : String) (d : String) : List (String × String) :=
  let c0 := pyStrip d
  if containsSub c0 "</details>" then
    (splitOnSubL ("</details>".data) c0.data).flatMap fun c =>
      (splitOnSubL ("<details>".data) c).flatMap fun c2 =>
        let c2s : String := ⟨pyStripL (pyRemoveChar ']' (pyRemoveChar '[' c2))⟩
        if c2s = "" then [] else [(k, c2s)]
  else
    [(k, ⟨pyStripL (pyRemoveChar ']' (pyRemoveChar '[' c0.data))⟩)]

mutual

/-- `_parse_dict` (markdown.py lines 95-118): iterate the dictionary items;
dict-valued entries recurse (with the default `skip_lists=True`), list-valued
entries are skipped when `skip` is set, string-valued entries go through
`_parse_txt`; every yielded key is prefixed with the surrounding key joined
by " - ".  `parseEntry`/`parseItem` are the per-value bodies of the Python
`for` loops; `_parse_list` (lines 121-141) enumerates items and uses the
integer index as the key for string items. -/
def parseDictE (k : String) (skip : Bool) : MdEntries → List (String × String)
  | .nil => []
  | .cons k2 v rest => parseEntry k skip k2 v ++ parseDictE k skip rest

/-- Body of the `_parse_dict` loop for a single item `(k2, v)`. -/
def parseEntry (k : String) (skip : Bool) (k2 : String) : MdValue → List (String × String)
  | .dict d => (parseDictE k2 true d).map (fun p => (k ++ " - " ++ p.1, p.2))
  | .list l =>
    if skip then []
    else (parseListI k2 0 l).map (fun p => (k ++ " - " ++ p.1, p.2))
  | .str s => (parseTxt k2 s).map (fun p => (k ++ " - " ++ p.1, p.2))

/-- `_parse_list` (markdown.py lines 121-141). -/
def parseListI (k : String) (idx : Nat) : MdItems → List (String × String)
  | .nil => []
  | .cons v rest => parseItem k idx v ++ parseListI k (idx + 1) rest

/-- Body of the `_parse_list` loop for a single enumerated item. -/
def parseItem (k : String) (idx : Nat) : MdValue → List (String × String)
  | .dict d => (parseDictE k true d).map (fun p => (k ++ " - " ++ p.1, p.2))
  | .list l => (parseListI k 0 l).map (fun p => (k ++ " - " ++ p.1, p.2))
  | .str s => (parseTxt (toString idx) s).map (fun p => (k ++ " - " ++ p.1, p.2))

end

/-- `_parse_dict(k, d)` with the default `skip_lists=True`. -/
def parseDict (k : String) (entries : MdEntries) : List (String × String) :=
  parseDictE k true entries

/-- `MarkdownParagraphSplitter.chunk` (markdown.py lines 67-92): fetch if the
input starts with "http" (propagating fetch failure), read a local `.md`
file, parse with `markdown_to_json.dictify`, then walk the dictionary; with
`include_title` each chunk is the heading path, a blank line, and the
content. -/
def MarkdownParagraphSplitter_chunk
    (fetch : String → Option String) (isfile : String → Bool)
    (readFile : String → String) (dictify : String → MdEntries)
    (data : String) (include_title : Bool) : Option (List String) :=
  match (if pyStartsWith data "http" then fetch data else some data) with
  | none => none
  | some d0 =>
    let d1 := if isfile d0 && pyEndsWith d0 ".md" then readFile d0 else d0
    some ((parseDict "" (dictify d1)).map fun p =>
      if include_title then p.1 ++ "\n\n" ++ p.2 else p.2)

/-- `MarkdownSentenceSplitter.chunk` (markdown.py lines 30-43): paragraph
chunks (without titles) are split at newlines; each non-empty line is
stripped and yielded.  The guard `if p:` tests emptiness before stripping. -/
def MarkdownSentenceSplitter_chunk
    (fetch : String → Option String) (isfile : String → Bool)
    (readFile : String → String) (dictify : String → MdEntries)
    (data : String) : Option (List String) :=
  (MarkdownParagraphSplitter_chunk fetch isfile readFile dictify data false).map
    fun chunks =>
      chunks.flatMap fun ch =>
        (splitLinesS ch).flatMap fun p => if p = "" then [] else [pyStrip p]

/-- Oracle: a fetch collaborator that always fails (raises). -/
def noFetch : String → Option String := fun _ => none

/-- Oracle: a filesystem on which no path is an existing file. -/
def noFile : String → Bool := fun _ => false

/-- Oracle: a file reader (never consulted together with `noFile`). -/
def noRead : String → String := fun _ => ""

/-- C5: for the parsed structure `{"Title": {"Sub": "hello world"}}` and
`include_title = true`, the Markdown paragraph splitter emits exactly one
chunk: the heading path (which ends in "Title - Sub"), a blank line, then
"hello world". -/
theorem markdown_heading_path_single_chunk :
    MarkdownParagraphSplitter_chunk noFetch noFile noRead
      (fun _ => .cons "Title" (.dict (.cons "Sub" (.str "hello world") .nil)) .nil)
      "# Title\n## Sub\nhello world" true
      = some [" - Title - Sub\n\nhello world"]
    ∧ pyEndsWith " - Title - Sub" "Title - Sub" = true := by
  constructor <;> rfl

/-- Every pair produced by the body of the `_parse_dict` loop has a key of
the form `k ++ " - " ++ t`: all three branches yield `f"{k} - {k3}"`. -/
theorem parseEntry_key_shape (k : String) (skip : Bool) (k2 : String) (v : MdValue) :
    ∀ p ∈ parseEntry k skip k2 v, ∃ t, p.1 = k ++ " - " ++ t := by
  cases v with
  | dict d =>
    intro p hp
    simp only [parseEntry, List.mem_map] at hp
    rcases hp with ⟨q, _, rfl⟩
    exact ⟨q.1, rfl⟩
  | list l =>
    intro p hp
    by_cases hs : skip = true
    · rw [parseEntry, if_pos hs] at hp
      simp at hp
    · rw [parseEntry, if_neg hs, List.mem_map] at hp
      rcases hp with ⟨q, _, rfl⟩
      exact ⟨q.1, rfl⟩
  | str s =>
    intro p hp
    simp only [parseEntry, List.mem_map] at hp
    rcases hp with ⟨q, _, rfl⟩
    exact ⟨q.1, rfl⟩

/-- Every pair produced by `_parse_dict(k, d)` has a key of the form
`k ++ " - " ++ t`. -/
theorem parseDictE_key_shape (k : String) (skip : Bool) :
    (es : MdEntries) → ∀ p ∈ parseDictE k skip es, ∃ t, p.1 = k ++ " - " ++ t
  | .nil => by simp [parseDictE]
  | .cons k2 v rest => by
    intro p hp
    simp only [parseDictE, List.mem_append] at hp
    rcases hp with hp | hp
    · exact parseEntry_key_shape k skip k2 v p hp
    · exact parseDictE_key_shape k skip rest p hp

/-- A list is a Boolean prefix of itself followed by anything. -/
theorem isPrefixOf_append_self (a b : List Char) : a.isPrefixOf (a ++ b) = true := by
  induction a with
  | nil => simp [List.isPrefixOf]
  | cons c cs ih => simp [List.isPrefixOf, ih]

/-- C10: with `include_title = true` every chunk emitted by
`MarkdownParagraphSplitter.chunk` starts with the three characters " - ":
the top-level call passes the empty root key, and every yielded key is the
root key joined to the sub-key by " - ". -/
theorem markdown_title_chunks_begin_with_separator
    (fetch : String → Option String) (isfile : String → Bool)
    (readFile : String → String) (dictify : String → MdEntries)
    (data : String) (out : List String) (c : String)
    (hout : MarkdownParagraphSplitter_chunk fetch isfile readFile dictify data true
      = some out)
    (hc : c ∈ out) : pyStartsWith c " - " = true := by
  unfold MarkdownParagraphSplitter_chunk at hout
  rcases hfetch : (if pyStartsWith data "http" then fetch data else some data) with
    _ | d0
  · rw [hfetch] at hout; exact absurd hout (by simp)
  · rw [hfetch] at hout
    simp only [Option.some.injEq] at hout
    subst hout
    simp only [List.mem_map] at hc
    rcases hc with ⟨p, hp, rfl⟩
    rcases parseDictE_key_shape "" true _ p hp with ⟨t, ht⟩
    show pyStartsWith (p.1 ++ "\n\n" ++ p.2) " - " = true
    unfold pyStartsWith
    rw [ht]
    show (" - ".data).isPrefixOf
      ((("" ++ " - " ++ t) ++ "\n\n" ++ p.2).data) = true
    simp only [String.data_append]
    rw [List.nil_append, List.append_assoc, List.append_assoc]
    exact isPrefixOf_append_self _ _

/-- C10 witness: a concrete run of the paragraph splitter whose single chunk
starts with " - ". -/
theorem markdown_title_chunks_begin_with_separator_witness :
    pyStartsWith " - Title - Sub\n\nhello world" " - " = true := by
  apply markdown_title_chunks_begin_with_separator noFetch noFile noRead
    (fun _ => .cons "Title" (.dict (.cons "Sub" (.str "hello world") .nil)) .nil)
    "# Title\n## Sub\nhello world" [" - Title - Sub\n\nhello world"]
  · rfl
  · simp

/-- C2 counterexample: `MarkdownSentenceSplitter.chunk` can emit the empty
string (which is empty after trimming): its guard `if p:` tests the line
before stripping, so a whitespace-only interior line of a paragraph chunk is
passed through `strip` and yielded as `""`. -/
theorem markdown_sentence_emits_empty_chunk :
    MarkdownSentenceSplitter_chunk noFetch noFile noRead
      (fun _ => .cons "T" (.str "a\n \nb") .nil) "doc"
      = some ["a", "", "b"]
    ∧ pyStrip "" = "" := by
  constructor <;> rfl

/-!  Regex sentence splitter (`text/sentence.py`).

The `quebra_frases` tokenizers are external collaborators that either return
a list of strings or raise; they are modelled as `Except`-valued oracles.
The Python `try`/`except` blocks become the `.error` match arms, so an
exception at either tokenization level is always caught locally. -/
/-- `RegexSentenceSplitter.chunk` (sentence.py lines 28-50): split the input
at newlines, skip blank lines, tokenize each line into paragraphs (on error:
yield the line unchanged), skip blank paragraphs, tokenize each paragraph
into sentences (on error: yield the paragraph unchanged). -/
def RegexSentenceSplitter_chunk
    (ptok stok : String → Except Unit (List String)) (data : String) : List String :=
  (splitLinesS data).flatMap fun c =>
    if pyStrip c = "" then []
    else
      match ptok c with
      | .error _ => [c]
      | .ok ps =>
        ps.flatMap fun p =>
          if pyStrip p = "" then []
          else
            match stok p with
            | .error _ => [p]
            | .ok ss => ss

/-- C7: tokenization failure is recovered locally by
`RegexSentenceSplitter.chunk` (the function is total by construction — every
tokenizer error is consumed by an `except` arm): if paragraph tokenization
throws on a non-blank line, that line is yielded unchanged; if sentence
tokenization throws on a non-blank paragraph of a line, that paragraph is
yielded unchanged. -/
theorem regex_sentence_tokenizer_fallback
    (ptok stok : String → Except Unit (List String)) (data c : String)
    (hc : c ∈ splitLinesS data) (hcb : pyStrip c ≠ "") :
    (ptok c = .error () → c ∈ RegexSentenceSplitter_chunk ptok stok data) ∧
    (∀ ps p, ptok c = .ok ps → p ∈ ps → pyStrip p ≠ "" → stok p = .error () →
      p ∈ RegexSentenceSplitter_chunk ptok stok data) := by
  constructor
  · intro herr
    unfold RegexSentenceSplitter_chunk
    rw [List.mem_flatMap]
    refine ⟨c, hc, ?_⟩
    rw [if_neg hcb, herr]
    exact List.mem_singleton.mpr rfl
  · intro ps p hok hp hpb herr
    unfold RegexSentenceSplitter_chunk
    rw [List.mem_flatMap]
    refine ⟨c, hc, ?_⟩
    rw [if_neg hcb, hok]
    rw [List.mem_flatMap]
    refine ⟨p, hp, ?_⟩
    rw [if_neg hpb, herr]
    exact List.mem_singleton.mpr rfl

/-- C7 witness: concrete applications of both fallback levels. -/
theorem regex_sentence_tokenizer_fallback_witness :
    "hello world" ∈ RegexSentenceSplitter_chunk
      (fun _ => .error ()) (fun _ => .error ()) "hello world"
    ∧ "pp" ∈ RegexSentenceSplitter_chunk
      (fun _ => .ok ["pp"]) (fun _ => .error ()) "hello" := by
  constructor
  · exact (regex_sentence_tokenizer_fallback (fun _ => .error ()) (fun _ => .error ())
      "hello world" "hello world" (by simp [splitLinesS, splitLinesL])
      (by decide)).1 rfl
  · exact (regex_sentence_tokenizer_fallback (fun _ => .ok ["pp"]) (fun _ => .error ())
      "hello" "hello" (by simp [splitLinesS, splitLinesL]) (by decide)).2
      ["pp"] "pp" rfl (by simp) (by decide) rfl

/-!  HTML denoiser (`files/webpages.py`, `denoise_html`, lines 87-159).

Each `re.sub` call of the source is embedded as a left-to-right scanner over
`List Char` implementing that particular pattern's matching semantics
(leftmost match, replacement not rescanned, scan resumes after the match).
The scanners take a `fuel` argument as a structural-recursion device; each
step consumes at least one input character, so the wrappers pass the input
length as fuel.  Fuel exhaustion returns the remaining input unchanged (and
is never reached through the wrappers). -/
/-- ASCII-case-insensitive character comparison (the source compiles its
patterns with `re.IGNORECASE`). -/
def charLowerEq (a b : Char) : Bool := a.toLower == b.toLower

/-- Case-insensitive Boolean prefix test. -/
def isPrefixOfCI : List Char → List Char → Bool
  | [], _ => true
  | _ :: _, [] => false
  | a :: ps, b :: ss => charLowerEq a b && isPrefixOfCI ps ss

/-- Scan for the earliest case-insensitive occurrence of `pat`, returning
the suffix after the match (the lazy `.*?pat` idiom under `re.DOTALL`). -/
def findCIAfter (pat : List Char) : List Char → Option (List Char)
  | [] => if pat.isEmpty then some [] else none
  | c :: rest =>
    if isPrefixOfCI pat (c :: rest) then some ((c :: rest).drop pat.length)
    else findCIAfter pat rest

/-- Scan to the first `'>'`, returning the suffix after it (the `[^>]*>`
idiom: the skipped characters are automatically not `'>'`). -/
def afterGt : List Char → Option (List Char)
  | [] => none
  | c :: rest => if c = '>' then some rest else afterGt rest

/-- Scan to the first `'>'`, returning the characters before it and the
suffix after it. -/
def upToGt : List Char → Option (List Char × List Char)
  | [] => none
  | c :: rest =>
    if c = '>' then some ([], rest)
    else
      match upToGt rest with
      | some (pre, post) => some (c :: pre, post)
      | none => none

/-- Match `<NAME[^>]*>.*?closeTag` (case-insensitive, DOTALL) at the head of
the input (`nameInner` is the tag name after the literal `<`); on success
return the suffix after the full match. -/
def removeTagBlockAt (nameInner closeTag : List Char) : List Char → Option (List Char)
  | [] => none
  | c :: rest =>
    if c = '<' then
      if isPrefixOfCI nameInner rest then
        match afterGt (rest.drop nameInner.length) with
        | none => none
        | some s2 => findCIAfter closeTag s2
      else none
    else none

/-- One `re.sub(<NAME[^>]*>.*?closeTag, '', s)` pass (webpages.py lines
119-120, used for script and style blocks). -/
def removeTagBlockF (nameInner closeTag : List Char) : Nat → List Char → List Char
  | 0, s => s
  | _ + 1, [] => []
  | fuel + 1, c :: rest =>
    match removeTagBlockAt nameInner closeTag (c :: rest) with
    | some after => removeTagBlockF nameInner closeTag fuel after
    | none => c :: removeTagBlockF nameInner closeTag fuel rest

/-- Wrapper supplying fuel for `removeTagBlockF`. -/
def removeTagBlock (nameInner closeTag s : List Char) : List Char :=
  removeTagBlockF nameInner closeTag s.length s

/-- Python `\w` on ASCII. -/
def isWordChar (c : Char) : Bool :=
  ('a' ≤ c && c ≤ 'z') || ('A' ≤ c && c ≤ 'Z') || ('0' ≤ c && c ≤ '9') || c = '_'

/-- Case-insensitive tag-name test with the `\b` word boundary of
`clean_tags` (webpages.py line 123): the name must be followed by a
non-word character (or the end of the tag interior). -/
def matchTagNameCI (name inner : List Char) : Bool :=
  isPrefixOfCI name inner &&
    (match inner.drop name.length with
     | [] => true
     | c :: _ => !(isWordChar c))

/-- Whitelist test of `clean_tags = r'</?(div|h[1-6]|p|br)\b[^>]*>'`
applied to the interior of a matched `<...>` span. -/
def isWhitelistedTag (inner : List Char) : Bool :=
  let inner2 := match inner with | '/' :: r => r | r => r
  [("div" : String), "h1", "h2", "h3", "h4", "h5", "h6", "p", "br"].any
    (fun n => matchTagNameCI n.data inner2)

/-- `re.sub(r'</?[^>]*>', keep-if-whitelisted-else-drop, s)` (webpages.py
lines 123-125): every `<...>` span is kept verbatim when its tag name is
whitelisted and deleted otherwise. -/
def stripTagsF : Nat → List Char → List Char
  | 0, s => s
  | _ + 1, [] => []
  | fuel + 1, c :: rest =>
    if c = '<' then
      match upToGt rest with
      | some (inner, after) =>
        if isWhitelistedTag inner then
          ('<' :: inner ++ ['>']) ++ stripTagsF fuel after
        else stripTagsF fuel after
      | none => c :: stripTagsF fuel rest
    else c :: stripTagsF fuel rest

/-- `re.sub(r'<(/?\w+)([^>]*)>', '<\1>', s)` (webpages.py lines 128-129):
drop the attributes of a tag, keeping the optional slash and the leading run
of word characters. -/
def stripAttrsF : Nat → List Char → List Char
  | 0, s => s
  | _ + 1, [] => []
  | fuel + 1, c :: rest =>
    if c = '<' then
      match upToGt rest with
      | some (inner, after) =>
        match inner with
        | '/' :: r =>
          let name := r.takeWhile isWordChar
          if name.isEmpty then c :: stripAttrsF fuel rest
          else ('<' :: '/' :: name ++ ['>']) ++ stripAttrsF fuel after
        | r =>
          let name := r.takeWhile isWordChar
          if name.isEmpty then c :: stripAttrsF fuel rest
          else ('<' :: name ++ ['>']) ++ stripAttrsF fuel after
      | none => c :: stripAttrsF fuel rest
    else c :: stripAttrsF fuel rest

/-- `re.sub(<NAME[^>]*>, repl, s)` (webpages.py line 132: `<div[^>]*>` to a
newline); `nameInner` is the pattern after the literal `<`. -/
def rewriteOpenTagF (nameInner repl : List Char) : Nat → List Char → List Char
  | 0, s => s
  | _ + 1, [] => []
  | fuel + 1, c :: rest =>
    if c = '<' then
      if isPrefixOfCI nameInner rest then
        match afterGt (rest.drop nameInner.length) with
        | some after => repl ++ rewriteOpenTagF nameInner repl fuel after
        | none => c :: rewriteOpenTagF nameInner repl fuel rest
      else c :: rewriteOpenTagF nameInner repl fuel rest
    else c :: rewriteOpenTagF nameInner repl fuel rest

/-- Case-insensitive literal `re.sub` for a pattern starting with `<`
(webpages.py line 133: `</div>` to a newline); `patInner` is the pattern
after the literal `<`. -/
def rewriteLiteralF (patInner repl : List Char) : Nat → List Char → List Char
  | 0, s => s
  | _ + 1, [] => []
  | fuel + 1, c :: rest =>
    if c = '<' then
      if isPrefixOfCI patInner rest then
        repl ++ rewriteLiteralF patInner repl fuel (rest.drop patInner.length)
      else c :: rewriteLiteralF patInner repl fuel rest
    else c :: rewriteLiteralF patInner repl fuel rest

/-- Match `<br\s*/?>` (case-insensitive) at the head of the input. -/
def matchBrAt : List Char → Option (List Char)
  | [] => none
  | c :: rest =>
    if c = '<' then
      if isPrefixOfCI ("br".data) rest then
        match (rest.drop 2).dropWhile pyIsSpace with
        | '/' :: '>' :: rest2 => some rest2
        | '>' :: rest2 => some rest2
        | _ => none
      else none
    else none

/-- `re.sub(r'<br\s*/?>', '\n', s)` (webpages.py line 134). -/
def rewriteBrF : Nat → List Char → List Char
  | 0, s => s
  | _ + 1, [] => []
  | fuel + 1, c :: rest =>
    match matchBrAt (c :: rest) with
    | some after => '\n' :: rewriteBrF fuel after
    | none => c :: rewriteBrF fuel rest

/-- Scan for the earliest case-insensitive occurrence of `pat` that is not
preceded by a newline (the lazy `(.*?)pat` idiom *without* `re.DOTALL`:
the captured interior may not contain a newline); return the interior and
the suffix after the match. -/
def findCIBeforeNl (pat : List Char) : List Char → Option (List Char × List Char)
  | [] => if pat.isEmpty then some ([], []) else none
  | c :: rest =>
    if isPrefixOfCI pat (c :: rest) then some ([], (c :: rest).drop pat.length)
    else if c = '\n' then none
    else
      match findCIBeforeNl pat rest with
      | some (pre, post) => some (c :: pre, post)
      | none => none

/-- Match `<NAME[^>]*>(.*?)closeTag` (case-insensitive, no DOTALL) at the
head of the input (`nameInner` is the opening tag name after the literal
`<`), returning the captured interior and the suffix after the match. -/
def matchPairAt (nameInner closeTag : List Char) : List Char → Option (List Char × List Char)
  | [] => none
  | c :: rest =>
    if c = '<' then
      if isPrefixOfCI nameInner rest then
        match afterGt (rest.drop nameInner.length) with
        | none => none
        | some s2 => findCIBeforeNl closeTag s2
      else none
    else none

/-- `re.sub(<NAME[^>]*>(.*?)closeTag, '\n\n\1', s)` (webpages.py lines
137-142: the `<h1>`-`<h6>` and `<p>` rewrites). -/
def rewritePairF (nameInner closeTag : List Char) : Nat → List Char → List Char
  | 0, s => s
  | _ + 1, [] => []
  | fuel + 1, c :: rest =>
    match matchPairAt nameInner closeTag (c :: rest) with
    | some (inner, after) =>
      '\n' :: '\n' :: inner ++ rewritePairF nameInner closeTag fuel after
    | none => c :: rewritePairF nameInner closeTag fuel rest

/-- Run a fuel-taking scanner with its input length as fuel (each scanner
step consumes at least one character, so this fuel always suffices). -/
def applyLen (f : Nat → List Char → List Char) (s : List Char) : List Char :=
  f s.length s

/-- The ordered tag-rewriting pipeline of `denoise_html` (webpages.py lines
118-142): script/style removal, tag whitelist filtering, attribute
stripping, `div`/`br` to newlines, headers and paragraphs to `\n\n`-led
text (applied innermost first, in source order). -/
def denoiseRegexPhase (s : List Char) : List Char :=
  applyLen (rewritePairF ("p".data) ("</p>".data))
    (applyLen (rewritePairF ("h6".data) ("</h6>".data))
      (applyLen (rewritePairF ("h5".data) ("</h5>".data))
        (applyLen (rewritePairF ("h4".data) ("</h4>".data))
          (applyLen (rewritePairF ("h3".data) ("</h3>".data))
            (applyLen (rewritePairF ("h2".data) ("</h2>".data))
              (applyLen (rewritePairF ("h1".data) ("</h1>".data))
                (applyLen rewriteBrF
                  (applyLen (rewriteLiteralF ("/div>".data) ['\n'])
                    (applyLen (rewriteOpenTagF ("div".data) ['\n'])
                      (applyLen stripAttrsF
                        (applyLen stripTagsF
                          (removeTagBlock ("style".data) ("</style>".data)
                            (removeTagBlock ("script".data) ("</script>".data)
                              s)))))))))))))

/-- One iteration of the line-filtering loop of `denoise_html` (webpages.py
lines 144-156): compute the stopword-excluded word list and its count; a
line equal to a single newline is preserved; a line containing a bad word
(substring test against the lowered line) is dropped; a line whose
stopword-excluded count is below `min_words` becomes a separator `"\n"`;
any other line is kept. -/
def processLineL (bad stop : List (List Char)) (minw : Nat) (l : List Char) :
    Option (List Char) :=
  let words := (pyWordsL l).filter (fun w => !(stop.contains (pyLowerL w)))
  let lnorm := intercalateChL ' ' words
  if l = ['\n'] then some l
  else if bad.any (fun w => containsSubL w (pyLowerL l)) then none
  else if (pyWordsL lnorm).length < minw then some ['\n']
  else some l

/-- The variant of `processLineL` with the (unreachable) `l == "\n"` branch
removed; used only to state that the branch is dead code. -/
def processLineNoSepL (bad stop : List (List Char)) (minw : Nat) (l : List Char) :
    Option (List Char) :=
  let words := (pyWordsL l).filter (fun w => !(stop.contains (pyLowerL w)))
  let lnorm := intercalateChL ' ' words
  if bad.any (fun w => containsSubL w (pyLowerL l)) then none
  else if (pyWordsL lnorm).length < minw then some ['\n']
  else some l

/-- The `lines` accumulation loop of `denoise_html`. -/
def processLinesL (bad stop : List (List Char)) (minw : Nat)
    (lines : List (List Char)) : List (List Char) :=
  lines.filterMap (processLineL bad stop minw)

/-- The pure tail of `denoise_html` after tag rewriting (webpages.py lines
144-159): filter the lines, rejoin with newlines, split at `"\n\n\n"`,
strip each block and drop blocks that are empty after stripping. -/
def denoiseCoreL (bad stop : List (List Char)) (minw : Nat) (cleaned : List Char) :
    List (List Char) :=
  let lines := processLinesL bad stop minw (splitLinesL cleaned)
  let cleaned2 := intercalateChL '\n' lines
  ((split3NlL cleaned2).filter (fun l => pyStripL l ≠ [])).map pyStripL

/-- Default bad-word list of `denoise_html` (webpages.py line 114). -/
def defaultBadWords : List String := ["cookie"]

/-- Default stop-word list of `denoise_html` (webpages.py line 116). -/
def defaultStopWords : List String :=
  ["the", "a", "an", "to", "of", "for", "as", "and", "it", "in", "we", "i"]

/-- Python `x or dflt` for an optional list parameter: both `None` and an
empty list select the default. -/
def pyOrList (x : Option (List String)) (dflt : List String) : List String :=
  match x with
  | none => dflt
  | some [] => dflt
  | some l => l

/-- `denoise_html` (webpages.py lines 87-159).  The fetch collaborator is
consulted when the input starts with "http" (its failure propagates, as
`response.raise_for_status()` does); an existing `.html` path is read; then
the tag-rewriting pipeline and the line filter run on the effective
content. -/
def denoise_html (fetch : String → Option String) (isfile : String → Bool)
    (readFile : String → String) (html_content : String)
    (bad_words stop_words : Option (List String)) (min_words : Nat) :
    Option (List String) :=
  match (if pyStartsWith html_content "http" then fetch html_content
         else some html_content) with
  | none => none
  | some h0 =>
    let h1 := if isfile h0 && pyEndsWith h0 ".html" then readFile h0 else h0
    let bad := pyOrList bad_words defaultBadWords
    let stop := pyOrList stop_words defaultStopWords
    let cleaned := denoiseRegexPhase h1.data
    some ((denoiseCoreL (bad.map String.data) (stop.map String.data) min_words
      cleaned).map String.mk)

/-- The configuration dictionary a splitter is constructed with (the fields
the spec names for the HTML splitters). -/
structure SplitterConfig where
  bad_words : List String := []
  stop_words : List String := []
  min_words : Nat := 0

/-- `HTMLParagraphSplitter.chunk` (webpages.py lines 74-84): the body is
`return denoise_html(data)` — the construction-time configuration is stored
on the instance but not passed on, so `denoise_html` always runs with its
default bad words, stop words and `min_words = 5`. -/
def HTMLParagraphSplitter_chunk (_config : SplitterConfig)
    (fetch : String → Option String) (isfile : String → Bool)
    (readFile : String → String) (data : String) : Option (List String) :=
  denoise_html fetch isfile readFile data none none 5

/-- `HTMLSentenceSplitter.chunk` (webpages.py lines 35-49): paragraph chunks
are split at newlines, each line is sentence-tokenized (external oracle
`stok`), and a sentence is stripped and yielded when it is non-empty and has
more than four whitespace-delimited tokens. -/
def HTMLSentenceSplitter_chunk (config : SplitterConfig)
    (stok : String → List String)
    (fetch : String → Option String) (isfile : String → Bool)
    (readFile : String → String) (data : String) : Option (List String) :=
  (HTMLParagraphSplitter_chunk config fetch isfile readFile data).map fun paras =>
    paras.flatMap fun ch =>
      (splitLinesS ch).flatMap fun p =>
        (stok p).filterMap fun s =>
          if s ≠ "" ∧ 4 < (pyWords s).length then some (pyStrip s) else none

/-- C4: with the default configuration (`min_words = 5`, bad word "cookie"
absent), the line "short line here" (three non-stopword tokens) is turned
into a blank separator by the line filter, and the whole input consequently
produces no paragraph chunk. -/
theorem short_line_becomes_separator :
    processLineL (defaultBadWords.map String.data) (defaultStopWords.map String.data)
      5 ("short line here".data) = some ['\n']
    ∧ denoise_html noFetch noFile noRead "short line here" none none 5 = some [] := by
  constructor <;> rfl

/-- Splitting on `"\n"` never produces an empty list of lines. -/
theorem splitLinesL_ne_nil : ∀ s : List Char, splitLinesL s ≠ []
  | [] => by simp [splitLinesL]
  | c :: rest => by
    unfold splitLinesL
    by_cases hc : c = '\n'
    · simp [hc]
    · rw [if_neg hc]
      rcases splitLinesL rest with _ | ⟨l, ls⟩ <;> simp

/-- No element of `s.split("\n")` contains a newline character. -/
theorem splitLinesL_no_nl : ∀ (s l : List Char), l ∈ splitLinesL s → '\n' ∉ l
  | [], l => by
    intro hl
    simp only [splitLinesL, List.mem_singleton] at hl
    subst hl
    simp
  | c :: rest, l => by
    intro hl
    unfold splitLinesL at hl
    by_cases hc : c = '\n'
    · rw [if_pos hc] at hl
      rcases List.mem_cons.mp hl with rfl | hl
      · simp
      · exact splitLinesL_no_nl rest l hl
    · rw [if_neg hc] at hl
      rcases h : splitLinesL rest with _ | ⟨l0, ls⟩
      · exact absurd h (splitLinesL_ne_nil rest)
      · rw [h] at hl
        rcases List.mem_cons.mp hl with rfl | hl
        · intro hmem
          rcases List.mem_cons.mp hmem with heq | hmem
          · exact hc heq.symm
          · exact splitLinesL_no_nl rest l0 (h ▸ List.mem_cons_self l0 ls) hmem
        · exact splitLinesL_no_nl rest l (h ▸ List.mem_cons_of_mem l0 hl)

/-- On a newline-free line, the filter with and without the `l == "\n"`
branch agree. -/
theorem processLineL_eq_noSep {l : List Char} (h : '\n' ∉ l)
    (bad stop : List (List Char)) (minw : Nat) :
    processLineL bad stop minw l = processLineNoSepL bad stop minw l := by
  unfold processLineL processLineNoSepL
  rw [if_neg]
  intro heq
  rw [heq] at h
  exact h (List.mem_singleton.mpr rfl)

/-- C9: the `if l == "\n"` branch of the line-filtering loop in
`denoise_html` is unreachable: splitting on the newline character never
yields an element containing a newline, so the filter behaves identically
with that branch removed. -/
theorem newline_equality_branch_unreachable (s : String) :
    ((splitLinesL s.data).all (fun l => decide ('\n' ∉ l))) = true
    ∧ ∀ bad stop minw,
        processLinesL bad stop minw (splitLinesL s.data)
          = (splitLinesL s.data).filterMap (processLineNoSepL bad stop minw) := by
  constructor
  · rw [List.all_eq_true]
    intro l hl
    rw [decide_eq_true_eq]
    exact splitLinesL_no_nl _ _ hl
  · intro bad stop minw
    unfold processLinesL
    apply List.filterMap_congr
    intro l hl
    exact processLineL_eq_noSep (splitLinesL_no_nl _ _ hl) bad stop minw

/-- Modelled from the spec: "starts with a recognized URL scheme" for the
HTTP(S) fetch contract — the input begins with `http://` or `https://`.
This is the spec-side comparison definition for the refinement claim about
the fetch gate; the source itself only tests `startswith("http")`. -/
def specStartsHttpUrlScheme (s : String) : Bool :=
  pyStartsWith s "http://" || pyStartsWith s "https://"

/-- C8 counterexample: the input "httpx junk words" starts with no
recognized URL scheme and names no file, yet the fetch collaborator is
invoked for it — a failing fetch surfaces as an error instead of the input
being chunked as literal content, and a succeeding fetch replaces the
content entirely (for both the HTML denoiser and the Markdown splitter). -/
theorem fetch_invoked_for_non_url_http_word :
    specStartsHttpUrlScheme "httpx junk words" = false
    ∧ denoise_html noFetch noFile noRead "httpx junk words" none none 5 = none
    ∧ denoise_html (fun _ => some "alpha beta gamma delta epsilon") noFile noRead
        "httpx junk words" none none 5 = some ["alpha beta gamma delta epsilon"]
    ∧ MarkdownParagraphSplitter_chunk noFetch noFile noRead (fun _ => .nil)
        "httpx junk words" true = none := by
  refine ⟨rfl, rfl, rfl, rfl⟩

/-- C8 (amended): the fetch collaborator is consulted exactly when the input
starts with the four-character prefix "http" (not a full URL scheme): a
non-"http"-prefixed input never consults fetch; an "http"-prefixed input
propagates a fetch failure; and a non-"http"-prefixed input that is not an
existing file with the matching extension (including an existing file with
a non-matching extension) is processed as literal content. -/
theorem http_prefix_gates_fetch (data : String) :
    (pyStartsWith data "http" = false →
      ∀ fetch fetch' isfile readFile bw sw mw,
        denoise_html fetch isfile readFile data bw sw mw
          = denoise_html fetch' isfile readFile data bw sw mw) ∧
    (pyStartsWith data "http" = true →
      ∀ isfile readFile bw sw mw,
        denoise_html noFetch isfile readFile data bw sw mw = none) ∧
    (pyStartsWith data "http" = false →
      ∀ isfile, (isfile data && pyEndsWith data ".html") = false →
      ∀ fetch readFile bw sw mw,
        denoise_html fetch isfile readFile data bw sw mw
          = some ((denoiseCoreL ((pyOrList bw defaultBadWords).map String.data)
              ((pyOrList sw defaultStopWords).map String.data) mw
              (denoiseRegexPhase data.data)).map String.mk)) ∧
    (pyStartsWith data "http" = false →
      ∀ fetch fetch' isfile readFile dictify it,
        MarkdownParagraphSplitter_chunk fetch isfile readFile dictify data it
          = MarkdownParagraphSplitter_chunk fetch' isfile readFile dictify data it) ∧
    (pyStartsWith data "http" = true →
      ∀ isfile readFile dictify it,
        MarkdownParagraphSplitter_chunk noFetch isfile readFile dictify data it
          = none) ∧
    (pyStartsWith data "http" = false →
      ∀ isfile, (isfile data && pyEndsWith data ".md") = false →
      ∀ fetch readFile dictify it,
        MarkdownParagraphSplitter_chunk fetch isfile readFile dictify data it
          = some ((parseDict "" (dictify data)).map fun p =>
              if it then p.1 ++ "\n\n" ++ p.2 else p.2)) := by
  refine ⟨?_, ?_, ?_, ?_, ?_, ?_⟩
  · intro h fetch fetch' isfile readFile bw sw mw
    unfold denoise_html
    rw [if_neg (by simp [h]), if_neg (by simp [h])]
  · intro h isfile readFile bw sw mw
    unfold denoise_html
    rw [if_pos h]
    rfl
  · intro h isfile hf fetch readFile bw sw mw
    unfold denoise_html
    rw [if_neg (by simp [h])]
    simp [hf]
  · intro h fetch fetch' isfile readFile dictify it
    unfold MarkdownParagraphSplitter_chunk
    rw [if_neg (by simp [h]), if_neg (by simp [h])]
  · intro h isfile readFile dictify it
    unfold MarkdownParagraphSplitter_chunk
    rw [if_pos h]
    rfl
  · intro h isfile hf fetch readFile dictify it
    unfold MarkdownParagraphSplitter_chunk
    rw [if_neg (by simp [h])]
    simp [hf]

/-- C8 witness: concrete instantiations of the fetch gate. -/
theorem http_prefix_gates_fetch_witness :
    denoise_html noFetch noFile noRead "plain words here now friend" none none 5
      = denoise_html (fun _ => some "other") noFile noRead
          "plain words here now friend" none none 5
    ∧ denoise_html noFetch noFile noRead "https://example.org" none none 5 = none
    ∧ denoise_html noFetch (fun _ => true) noRead "plain words here now friend"
        none none 5
      = some ((denoiseCoreL ((pyOrList none defaultBadWords).map String.data)
          ((pyOrList none defaultStopWords).map String.data) 5
          (denoiseRegexPhase "plain words here now friend".data)).map String.mk) := by
  refine ⟨?_, ?_, ?_⟩
  · exact (http_prefix_gates_fetch "plain words here now friend").1 rfl
      noFetch (fun _ => some "other") noFile noRead none none 5
  · exact (http_prefix_gates_fetch "https://example.org").2.1 rfl noFile noRead
      none none 5
  · exact (http_prefix_gates_fetch "plain words here now friend").2.2.1 rfl
      (fun _ => true) (by decide) noFetch noRead none none 5

/-- C3 counterexample: the bad-word set configured on the splitter instance
is ignored by `chunk` (which calls `denoise_html` with its defaults): with
`bad_words = {"zebra"}` an emitted paragraph still contains "zebra". -/
theorem html_paragraph_ignores_configured_bad_words :
    HTMLParagraphSplitter_chunk ⟨["zebra"], [], 5⟩ noFetch noFile noRead
      "wild zebra animals run around fast today"
      = some ["wild zebra animals run around fast today"]
    ∧ containsSub (pyLower "wild zebra animals run around fast today")
        (pyLower "zebra") = true := by
  constructor <;> rfl

/-- C6 counterexample: a fully denoised output block that happens to begin
with "http" is not returned unchanged by a second `denoise_html` run — the
block is treated as a URL and the fetch collaborator is consulted (here,
failing), so re-running the denoiser on its own plain-text output is not
the identity. -/
theorem denoise_rerun_fetches_http_block :
    denoise_html noFetch noFile noRead "\nhttpzzz alpha beta gamma delta"
      none none 5 = some ["httpzzz alpha beta gamma delta"]
    ∧ denoise_html noFetch noFile noRead "httpzzz alpha beta gamma delta"
        none none 5 = none := by
  constructor <;> rfl

/-!  Substring machinery: `SubSeg t l` states that `t` occurs contiguously
inside `l` (Python's `t in l`). -/
/-- Contiguous-substring occurrence. -/
def SubSeg (t l : List Char) : Prop := ∃ u v, l = u ++ t ++ v

/-- Reflexivity of `SubSeg`. -/
theorem subSeg_refl (l : List Char) : SubSeg l l := ⟨[], [], by simp⟩

/-- Transitivity of `SubSeg`. -/
theorem subSeg_trans {t m l : List Char} (h1 : SubSeg t m) (h2 : SubSeg m l) :
    SubSeg t l := by
  rcases h1 with ⟨u1, v1, rfl⟩
  rcases h2 with ⟨u2, v2, rfl⟩
  exact ⟨u2 ++ u1, v1 ++ v2, by simp⟩

/-- `SubSeg` is preserved by mapping (used with `Char.toLower`). -/
theorem subSeg_map {t l : List Char} (f : Char → Char) (h : SubSeg t l) :
    SubSeg (t.map f) (l.map f) := by
  rcases h with ⟨u, v, rfl⟩
  exact ⟨u.map f, v.map f, by simp⟩

/-- Boolean prefix test as an existential. -/
theorem isPrefixOf_iff_exists : ∀ (a b : List Char),
    a.isPrefixOf b = true ↔ ∃ v, b = a ++ v
  | [], b => by simp [List.isPrefixOf]
  | a :: as, [] => by
    simp [List.isPrefixOf]
  | a :: as, b :: bs => by
    simp only [List.isPrefixOf, Bool.and_eq_true, beq_iff_eq]
    rw [isPrefixOf_iff_exists as bs]
    constructor
    · rintro ⟨rfl, v, rfl⟩
      exact ⟨v, rfl⟩
    · rintro ⟨v, hv⟩
      rw [List.cons_append] at hv
      injection hv with h1 h2
      exact ⟨h1.symm, v, h2⟩

/-- The Boolean substring scan agrees with `SubSeg`. -/
theorem containsSubL_iff_subSeg : ∀ (pat hay : List Char),
    containsSubL pat hay = true ↔ SubSeg pat hay
  | pat, [] => by
    simp only [containsSubL, List.isEmpty_iff]
    constructor
    · rintro rfl
      exact ⟨[], [], rfl⟩
    · rintro ⟨u, v, huv⟩
      rcases List.append_eq_nil.mp huv.symm with ⟨h1, h2⟩
      exact (List.append_eq_nil.mp h1).2
  | pat, c :: rest => by
    simp only [containsSubL, Bool.or_eq_true]
    rw [isPrefixOf_iff_exists, containsSubL_iff_subSeg pat rest]
    constructor
    · rintro (⟨v, hv⟩ | ⟨u, v, rfl⟩)
      · exact ⟨[], v, by simp [hv]⟩
      · exact ⟨c :: u, v, rfl⟩
    · rintro ⟨u, v, huv⟩
      rcases u with _ | ⟨u0, u'⟩
      · exact Or.inl ⟨v, by simpa using huv⟩
      · rw [List.cons_append, List.cons_append] at huv
        injection huv with h1 h2
        exact Or.inr ⟨u', v, h2⟩

/-- If `t` is a prefix of `x ++ c :: y` and `c ∉ t`, then `t` is a prefix
of `x`. -/
theorem pfx_split {c : Char} : ∀ (t x y : List Char),
    (∃ v, x ++ c :: y = t ++ v) → c ∉ t → ∃ v, x = t ++ v
  | [], x, y, _, _ => ⟨x, rfl⟩
  | d :: t', [], y, ⟨v, hv⟩, hc => by
    rw [List.nil_append, List.cons_append] at hv
    injection hv with h1 _
    exact absurd (h1 ▸ List.mem_cons_self d t') hc
  | d :: t', a :: x', y, ⟨v, hv⟩, hc => by
    rw [List.cons_append, List.cons_append] at hv
    injection hv with h1 h2
    rcases pfx_split t' x' y ⟨v, h2⟩ (fun hm => hc (List.mem_cons_of_mem d hm)) with
      ⟨v', hv'⟩
    exact ⟨v', by rw [hv', h1, List.cons_append]⟩

/-- If `t` occurs in `x ++ c :: y` and `c ∉ t`, the occurrence lies wholly
inside `x` or wholly inside `y`. -/
theorem subSeg_split_at_ch {c : Char} : ∀ (t x y : List Char),
    SubSeg t (x ++ c :: y) → c ∉ t → SubSeg t x ∨ SubSeg t y
  | t, [], y, ⟨u, v, huv⟩, hc => by
    rcases u with _ | ⟨b, u'⟩
    · rcases t with _ | ⟨d, t'⟩
      · exact Or.inl (subSeg_refl [])
      · rw [List.nil_append, List.nil_append, List.cons_append] at huv
        injection huv with h1 _
        exact absurd (h1.symm ▸ List.mem_cons_self d t') hc
    · rw [List.nil_append, List.cons_append] at huv
      injection huv with _ h2
      exact Or.inr ⟨u', v, h2⟩
  | t, a :: x', y, ⟨u, v, huv⟩, hc => by
    rcases u with _ | ⟨b, u'⟩
    · rw [List.nil_append] at huv
      rcases pfx_split t (a :: x') y ⟨v, huv⟩ hc with ⟨v', hv'⟩
      exact Or.inl ⟨[], v', by simp [hv']⟩
    · rw [List.cons_append, List.cons_append] at huv
      injection huv with _ h2
      rcases subSeg_split_at_ch t x' y ⟨u', v, by simpa using h2⟩ hc with h | h
      · rcases h with ⟨u2, v2, hx⟩
        exact Or.inl ⟨a :: u2, v2, by simp [hx]⟩
      · exact Or.inr h

/-- An occurrence that avoids the separator character lies inside one of the
joined pieces. -/
theorem subSeg_intercalate {c : Char} {t : List Char} (hc : c ∉ t) :
    ∀ ls : List (List Char), SubSeg t (intercalateChL c ls) →
      ls = [] ∨ ∃ l ∈ ls, SubSeg t l
  | [], h => Or.inl rfl
  | [x], h => Or.inr ⟨x, List.mem_singleton.mpr rfl, h⟩
  | x :: y :: rest, h => by
    rw [show intercalateChL c (x :: y :: rest)
        = x ++ c :: intercalateChL c (y :: rest) from rfl] at h
    rcases subSeg_split_at_ch t x _ h hc with h' | h'
    · exact Or.inr ⟨x, List.mem_cons_self x _, h'⟩
    · rcases subSeg_intercalate hc (y :: rest) h' with h'' | ⟨l, hl, hsub⟩
      · cases h''
      · exact Or.inr ⟨l, List.mem_cons_of_mem x hl, hsub⟩

/-- Membership in a joined list gives a contiguous occurrence. -/
theorem subSeg_of_mem_intercalate {c : Char} :
    ∀ (ls : List (List Char)) (l : List Char), l ∈ ls →
      SubSeg l (intercalateChL c ls)
  | [], l, h => absurd h (List.not_mem_nil l)
  | [x], l, h => by
    rw [List.mem_singleton.mp h]
    exact subSeg_refl x
  | x :: y :: rest, l, h => by
    rcases List.mem_cons.mp h with rfl | h'
    · exact ⟨[], c :: intercalateChL c (y :: rest), rfl⟩
    · rcases subSeg_of_mem_intercalate (y :: rest) l h' with ⟨u, v, huv⟩
      exact ⟨x ++ c :: u, v, by rw [show intercalateChL c (x :: y :: rest)
          = x ++ c :: intercalateChL c (y :: rest) from rfl, huv]; simp⟩

/-- Lowering distributes over a single-character join when the separator is
fixed by `Char.toLower` (newline is). -/
theorem pyLowerL_intercalate {c : Char} (hc : c.toLower = c) :
    ∀ ls : List (List Char),
      pyLowerL (intercalateChL c ls) = intercalateChL c (ls.map pyLowerL)
  | [] => rfl
  | [x] => rfl
  | x :: y :: rest => by
    rw [show intercalateChL c (x :: y :: rest)
        = x ++ c :: intercalateChL c (y :: rest) from rfl]
    rw [show (x :: y :: rest).map pyLowerL
        = pyLowerL x :: (y :: rest).map pyLowerL from rfl]
    rw [show intercalateChL c (pyLowerL x :: (y :: rest).map pyLowerL)
        = pyLowerL x ++ c :: intercalateChL c ((y :: rest).map pyLowerL) from by
      cases rest <;> rfl]
    rw [← pyLowerL_intercalate hc (y :: rest)]
    unfold pyLowerL
    rw [List.map_append, List.map_cons, hc]

/-!  Whitespace, strip and word-count lemmas. -/
/-- All characters of a list are Python whitespace. -/
def AllWs (l : List Char) : Prop := ∀ c ∈ l, pyIsSpace c = true

/-- `l` equals `l'` with whitespace removed from both edges. -/
def EdgeTrim (l' l : List Char) : Prop :=
  ∃ a b, l' = a ++ l ++ b ∧ AllWs a ∧ AllWs b

/-- Reflexivity of `EdgeTrim`. -/
theorem edgeTrim_refl (l : List Char) : EdgeTrim l l :=
  ⟨[], [], by simp, fun c h => absurd h (List.not_mem_nil c),
    fun c h => absurd h (List.not_mem_nil c)⟩

/-- Transitivity of `EdgeTrim`. -/
theorem edgeTrim_trans {x y z : List Char} (h1 : EdgeTrim x y) (h2 : EdgeTrim y z) :
    EdgeTrim x z := by
  rcases h1 with ⟨a1, b1, rfl, ha1, hb1⟩
  rcases h2 with ⟨a2, b2, rfl, ha2, hb2⟩
  refine ⟨a1 ++ a2, b2 ++ b1, by simp, ?_, ?_⟩
  · intro c hc
    rcases List.mem_append.mp hc with h | h
    · exact ha1 c h
    · exact ha2 c h
  · intro c hc
    rcases List.mem_append.mp hc with h | h
    · exact hb2 c h
    · exact hb1 c h

/-- `EdgeTrim` is compatible with list reversal. -/
theorem edgeTrim_reverse {x y : List Char} (h : EdgeTrim x y) :
    EdgeTrim x.reverse y.reverse := by
  rcases h with ⟨a, b, rfl, ha, hb⟩
  refine ⟨b.reverse, a.reverse, by simp, ?_, ?_⟩
  · intro c hc
    exact hb c (List.mem_reverse.mp hc)
  · intro c hc
    exact ha c (List.mem_reverse.mp hc)

/-- An `EdgeTrim` source contains the trimmed list contiguously. -/
theorem subSeg_of_edgeTrim {x y : List Char} (h : EdgeTrim x y) : SubSeg y x := by
  rcases h with ⟨a, b, rfl, _, _⟩
  exact ⟨a, b, rfl⟩

/-- Dropping leading whitespace ignores an all-whitespace prefix. -/
theorem dropWhile_allws_append {a : List Char} (ha : AllWs a) (s : List Char) :
    (a ++ s).dropWhile pyIsSpace = s.dropWhile pyIsSpace := by
  induction a with
  | nil => rfl
  | cons c a' ih =>
    rw [List.cons_append, List.dropWhile_cons,
      if_pos (ha c (List.mem_cons_self c a'))]
    exact ih (fun d hd => ha d (List.mem_cons_of_mem c hd))

/-- Dropping leading whitespace from an all-whitespace list gives `[]`. -/
theorem dropWhile_allws_nil {b : List Char} (hb : AllWs b) :
    b.dropWhile pyIsSpace = [] := by
  have := dropWhile_allws_append hb ([] : List Char)
  simpa using this

/-- An all-whitespace list is trimmed to `[]` from the end. -/
theorem dropEndWs_nil_of_allws : ∀ {b : List Char}, AllWs b → dropEndWsL b = []
  | [], _ => rfl
  | c :: rest, h => by
    unfold dropEndWsL
    rw [dropEndWs_nil_of_allws (fun d hd => h d (List.mem_cons_of_mem c hd))]
    simp [h c (List.mem_cons_self c rest)]

/-- Conversely, a list trimmed-from-the-end to `[]` is all whitespace. -/
theorem allws_of_dropEndWs_nil : ∀ {b : List Char}, dropEndWsL b = [] → AllWs b
  | [], _ => fun c h => absurd h (List.not_mem_nil c)
  | c :: rest, h => by
    unfold dropEndWsL at h
    rcases hr : dropEndWsL rest with _ | ⟨x, xs⟩
    · rw [hr] at h
      by_cases hc : pyIsSpace c = true
      · intro d hd
        rcases List.mem_cons.mp hd with rfl | hd
        · exact hc
        · exact allws_of_dropEndWs_nil hr d hd
      · rw [if_neg hc] at h
        cases h
    · rw [hr] at h
      cases h

/-- Trimming from the end ignores an all-whitespace suffix. -/
theorem dropEndWs_append_allws {b : List Char} (hb : AllWs b) :
    ∀ y : List Char, dropEndWsL (y ++ b) = dropEndWsL y
  | [] => by
    rw [List.nil_append]
    exact (dropEndWs_nil_of_allws hb).trans rfl
  | c :: y' => by
    show dropEndWsL (c :: (y' ++ b)) = dropEndWsL (c :: y')
    unfold dropEndWsL
    rw [dropEndWs_append_allws hb y']

/-- Decomposition: trimming from the end removes an all-whitespace suffix. -/
theorem dropEndWs_decomp : ∀ y : List Char,
    ∃ b, y = dropEndWsL y ++ b ∧ AllWs b
  | [] => ⟨[], rfl, fun c h => absurd h (List.not_mem_nil c)⟩
  | c :: rest => by
    rcases dropEndWs_decomp rest with ⟨b, hb, hws⟩
    unfold dropEndWsL
    rcases hr : dropEndWsL rest with _ | ⟨x, xs⟩
    · by_cases hc : pyIsSpace c = true
      · refine ⟨c :: rest, ?_, ?_⟩
        · simp [hc]
        · intro d hd
          rcases List.mem_cons.mp hd with rfl | hd
          · exact hc
          · exact allws_of_dropEndWs_nil hr d hd
      · refine ⟨b, ?_, hws⟩
        rw [hr] at hb
        simp [hc, hb]
    · refine ⟨b, ?_, hws⟩
      rw [hr] at hb
      rw [hb]
      simp

/-- Strip ignores an all-whitespace prefix. -/
theorem pyStripL_ws_prepend {a : List Char} (ha : AllWs a) (s : List Char) :
    pyStripL (a ++ s) = pyStripL s := by
  unfold pyStripL
  rw [dropWhile_allws_append ha]

/-- Strip ignores an all-whitespace suffix. -/
theorem pyStripL_append_ws {b : List Char} (hb : AllWs b) :
    ∀ s : List Char, pyStripL (s ++ b) = pyStripL s
  | [] => by
    rw [List.nil_append]
    unfold pyStripL
    rw [dropWhile_allws_nil hb]
    rfl
  | c :: s' => by
    by_cases hc : pyIsSpace c = true
    · have h1 : pyStripL (c :: (s' ++ b)) = pyStripL (s' ++ b) := by
        unfold pyStripL
        rw [List.dropWhile_cons, if_pos hc]
      have h2 : pyStripL (c :: s') = pyStripL s' := by
        unfold pyStripL
        rw [List.dropWhile_cons, if_pos hc]
      rw [List.cons_append, h1, h2]
      exact pyStripL_append_ws hb s'
    · have h1 : pyStripL (c :: (s' ++ b)) = dropEndWsL (c :: (s' ++ b)) := by
        unfold pyStripL
        rw [List.dropWhile_cons, if_neg hc]
      have h2 : pyStripL (c :: s') = dropEndWsL (c :: s') := by
        unfold pyStripL
        rw [List.dropWhile_cons, if_neg hc]
      rw [List.cons_append, h1, h2,
        show c :: (s' ++ b) = (c :: s') ++ b from rfl,
        dropEndWs_append_allws hb]

/-- Strip removes exactly an all-whitespace border. -/
theorem strip_decomp (s : List Char) : EdgeTrim s (pyStripL s) := by
  rcases dropEndWs_decomp (s.dropWhile pyIsSpace) with ⟨b, hb, hws⟩
  refine ⟨s.takeWhile pyIsSpace, b, ?_, ?_, hws⟩
  · conv_lhs => rw [← List.takeWhile_append_dropWhile pyIsSpace s]
    rw [show pyStripL s = dropEndWsL (s.dropWhile pyIsSpace) from rfl,
      List.append_assoc, ← hb]
  · intro c hc
    exact List.mem_takeWhile_imp hc

/-- The stripped string occurs inside the original. -/
theorem subSeg_strip (s : List Char) : SubSeg (pyStripL s) s :=
  subSeg_of_edgeTrim (strip_decomp s)

/-- The first character surviving `dropWhile` fails the predicate. -/
theorem dropWhile_head_not {p : Char → Bool} :
    ∀ {s : List Char} {c : Char} {r : List Char},
      List.dropWhile p s = c :: r → p c = false
  | [], c, r, h => by cases h
  | d :: s', c, r, h => by
    rw [List.dropWhile_cons] at h
    by_cases hd : p d = true
    · rw [if_pos hd] at h
      exact dropWhile_head_not h
    · rw [if_neg hd] at h
      injection h with h1 _
      subst h1
      exact Bool.eq_false_iff.mpr hd

/-- Unfolding equation for `dropEndWsL` on a cons cell. -/
theorem dropEndWs_cons (d : Char) (t : List Char) :
    dropEndWsL (d :: t)
      = match dropEndWsL t with
        | [] => if pyIsSpace d = true then [] else [d]
        | r => d :: r := rfl

/-- Trimming from the end is idempotent. -/
theorem dropEndWs_idem : ∀ y : List Char, dropEndWsL (dropEndWsL y) = dropEndWsL y
  | [] => rfl
  | c :: rest => by
    rcases hr : dropEndWsL rest with _ | ⟨x, xs⟩
    · rw [dropEndWs_cons c rest, hr]
      by_cases hc : pyIsSpace c = true
      · rw [if_pos hc]
        rfl
      · rw [if_neg hc]
        show dropEndWsL [c] = [c]
        rw [dropEndWs_cons c []]
        show (if pyIsSpace c = true then [] else [c]) = [c]
        rw [if_neg hc]
    · have ih := dropEndWs_idem rest
      rw [hr] at ih
      rw [dropEndWs_cons c rest, hr]
      show dropEndWsL (c :: x :: xs) = c :: x :: xs
      rw [dropEndWs_cons c (x :: xs), ih]

/-- Strip is idempotent. -/
theorem pyStripL_idem (s : List Char) : pyStripL (pyStripL s) = pyStripL s := by
  have hpre : (pyStripL s).dropWhile pyIsSpace = pyStripL s := by
    rcases hv : pyStripL s with _ | ⟨c, r⟩
    · rfl
    · rcases dropEndWs_decomp (s.dropWhile pyIsSpace) with ⟨b, hb, _⟩
      unfold pyStripL at hv
      rw [hv] at hb
      have hc : pyIsSpace c = false := dropWhile_head_not hb
      rw [List.dropWhile_cons, if_neg (by simp [hc])]
  show dropEndWsL ((pyStripL s).dropWhile pyIsSpace) = pyStripL s
  rw [hpre]
  show dropEndWsL (dropEndWsL (s.dropWhile pyIsSpace)) = pyStripL s
  rw [dropEndWs_idem]
  rfl

/-- The word scanner ignores a trailing all-whitespace suffix. -/
theorem wordsAux_append_allws {b : List Char} (hb : AllWs b) :
    ∀ (s acc : List Char), wordsAux (s ++ b) acc = wordsAux s acc
  | [], acc => by
    rw [List.nil_append]
    induction b generalizing acc with
    | nil => rfl
    | cons c b' ih =>
      have hc : pyIsSpace c = true := hb c (List.mem_cons_self c b')
      have hb' : AllWs b' := fun d hd => hb d (List.mem_cons_of_mem c hd)
      show wordsAux (c :: b') acc = wordsAux [] acc
      unfold wordsAux
      rw [if_pos hc]
      by_cases hacc : acc.isEmpty = true
      · rw [if_pos hacc, if_pos hacc]
        have := ih hb' []
        simpa [wordsAux] using this
      · rw [if_neg hacc, if_neg hacc]
        have := ih hb' []
        simp only [wordsAux] at this ⊢
        rw [this]
        rfl
  | c :: s', acc => by
    show wordsAux (c :: (s' ++ b)) acc = wordsAux (c :: s') acc
    unfold wordsAux
    by_cases hc : pyIsSpace c = true
    · rw [if_pos hc, if_pos hc]
      by_cases hacc : acc.isEmpty = true
      · rw [if_pos hacc, if_pos hacc, wordsAux_append_allws hb s' []]
      · rw [if_neg hacc, if_neg hacc, wordsAux_append_allws hb s' []]
    · rw [if_neg hc, if_neg hc, wordsAux_append_allws hb s' (c :: acc)]

/-- Python `split()` ignores a trailing all-whitespace suffix. -/
theorem pyWordsL_append_ws {b : List Char} (hb : AllWs b) (s : List Char) :
    pyWordsL (s ++ b) = pyWordsL s :=
  wordsAux_append_allws hb s []

/-- Python `split()` ignores a leading all-whitespace prefix. -/
theorem pyWordsL_ws_prepend {a : List Char} (ha : AllWs a) (s : List Char) :
    pyWordsL (a ++ s) = pyWordsL s := by
  induction a with
  | nil => rfl
  | cons c a' ih =>
    have hc : pyIsSpace c = true := ha c (List.mem_cons_self c a')
    have ha' : AllWs a' := fun d hd => ha d (List.mem_cons_of_mem c hd)
    show wordsAux (c :: (a' ++ s)) [] = pyWordsL s
    unfold wordsAux
    rw [if_pos hc, if_pos (show ([] : List Char).isEmpty = true from rfl)]
    exact ih ha'

/-- Python `split()` is invariant under whitespace edge-trimming. -/
theorem pyWordsL_edgeTrim {lo l : List Char} (h : EdgeTrim lo l) :
    pyWordsL lo = pyWordsL l := by
  rcases h with ⟨a, b, rfl, ha, hb⟩
  rw [List.append_assoc, pyWordsL_ws_prepend ha, pyWordsL_append_ws hb]

/-- A string with at least one word does not strip to the empty string. -/
theorem pyStripL_ne_nil_of_words {s : List Char} (h : pyWordsL s ≠ []) :
    pyStripL s ≠ [] := by
  intro hnil
  apply h
  have := pyWordsL_edgeTrim (strip_decomp s)
  rw [hnil] at this
  simpa [pyWordsL, wordsAux] using this

/-!  Line-structure lemmas: splitting at newlines and rejoining. -/
/-- Unfolding equation for `splitLinesL` on a cons cell. -/
theorem splitLines_cons (c : Char) (t : List Char) :
    splitLinesL (c :: t)
      = if c = '\n' then [] :: splitLinesL t
        else match splitLinesL t with
          | l :: ls => (c :: l) :: ls
          | [] => [[c]] := rfl

/-- Splitting distributes over a newline join point. -/
theorem splitLines_append_nl : ∀ (x y : List Char),
    splitLinesL (x ++ '\n' :: y) = splitLinesL x ++ splitLinesL y
  | [], y => by simp [splitLinesL]
  | a :: x', y => by
    by_cases ha : a = '\n'
    · subst ha
      rw [List.cons_append, splitLines_cons, if_pos rfl, splitLines_cons, if_pos rfl,
        splitLines_append_nl x' y]
      rfl
    · rcases h : splitLinesL x' with _ | ⟨l, ls⟩
      · exact absurd h (splitLinesL_ne_nil x')
      · rw [List.cons_append, splitLines_cons, if_neg ha, splitLines_cons, if_neg ha,
          splitLines_append_nl x' y, h]
        rfl

/-- Unfolding equation for `intercalateChL` on a two-element head. -/
theorem intercalateCh_cons2 (c : Char) (x y : List Char) (rest : List (List Char)) :
    intercalateChL c (x :: y :: rest) = x ++ c :: intercalateChL c (y :: rest) := rfl

/-- Rejoining the lines of a string restores the string. -/
theorem intercalate_splitLines : ∀ s : List Char,
    intercalateNlL (splitLinesL s) = s
  | [] => rfl
  | c :: rest => by
    have ih := intercalate_splitLines rest
    by_cases hc : c = '\n'
    · subst hc
      rw [splitLines_cons, if_pos rfl]
      rcases h : splitLinesL rest with _ | ⟨l, ls⟩
      · exact absurd h (splitLinesL_ne_nil rest)
      · rw [h] at ih
        show intercalateChL '\n' ([] :: l :: ls) = '\n' :: rest
        rw [intercalateCh_cons2]
        rw [show (([] : List Char) ++ '\n' :: intercalateChL '\n' (l :: ls))
            = '\n' :: intercalateChL '\n' (l :: ls) from rfl]
        exact congrArg ('\n' :: ·) ih
    · rw [splitLines_cons, if_neg hc]
      rcases h : splitLinesL rest with _ | ⟨l, ls⟩
      · exact absurd h (splitLinesL_ne_nil rest)
      · rw [h] at ih
        rcases ls with _ | ⟨m, ls'⟩
        · show intercalateNlL [c :: l] = c :: rest
          show c :: l = c :: rest
          have : intercalateNlL [l] = rest := ih
          rw [show intercalateNlL [l] = l from rfl] at this
          rw [this]
        · show intercalateNlL ((c :: l) :: m :: ls') = c :: rest
          show (c :: l) ++ '\n' :: intercalateChL '\n' (m :: ls') = c :: rest
          rw [List.cons_append]
          exact congrArg (c :: ·) ih

/-- A newline-free string is its own single line. -/
theorem splitLines_no_nl {x : List Char} (h : '\n' ∉ x) : splitLinesL x = [x] := by
  induction x with
  | nil => rfl
  | cons c r ih =>
    have hc : c ≠ '\n' := fun hc => h (hc ▸ List.mem_cons_self c r)
    rw [splitLines_cons, if_neg hc, ih (fun hm => h (List.mem_cons_of_mem c hm))]

/-- Splitting a join of newline-free lines recovers the lines. -/
theorem splitLines_intercalate : ∀ g : List (List Char), g ≠ [] →
    (∀ l ∈ g, '\n' ∉ l) → splitLinesL (intercalateNlL g) = g
  | [], h, _ => absurd rfl h
  | [x], _, hnl => by
    show splitLinesL x = [x]
    exact splitLines_no_nl (hnl x (List.mem_singleton.mpr rfl))
  | x :: y :: rest, _, hnl => by
    show splitLinesL (intercalateChL '\n' (x :: y :: rest)) = x :: y :: rest
    rw [intercalateCh_cons2]
    rw [show (intercalateChL '\n' (y :: rest)) = intercalateNlL (y :: rest) from rfl]
    rw [splitLines_append_nl, splitLines_no_nl (hnl x (List.mem_cons_self x _)),
      splitLines_intercalate (y :: rest) (by simp)
        (fun l hl => hnl l (List.mem_cons_of_mem x hl))]
    rfl

/-- Unfolding equation for `intercalateNlL` on a two-element head. -/
theorem intercalateNl_cons2 (x y : List Char) (rest : List (List Char)) :
    intercalateNlL (x :: y :: rest) = x ++ '\n' :: intercalateNlL (y :: rest) := rfl

/-- Joining and then appending one more line. -/
theorem intercalate_append_single : ∀ (A : List (List Char)) (b : List Char),
    A ≠ [] → intercalateNlL (A ++ [b]) = intercalateNlL A ++ '\n' :: b
  | [], _, h => absurd rfl h
  | [a], b, _ => rfl
  | a :: a2 :: A2, b, _ => by
    have ih := intercalate_append_single (a2 :: A2) b (by simp)
    rw [show ((a :: a2 :: A2) ++ [b] : List (List Char))
        = a :: a2 :: (A2 ++ [b]) from rfl]
    rw [intercalateNl_cons2 a a2 (A2 ++ [b])]
    rw [show (a2 :: (A2 ++ [b]) : List (List Char)) = (a2 :: A2) ++ [b] from rfl]
    rw [ih, intercalateNl_cons2 a a2 A2]
    simp

/-- Reversing a newline join reverses and flips the pieces. -/
theorem intercalate_reverse : ∀ ls : List (List Char),
    (intercalateNlL ls).reverse = intercalateNlL ((ls.map List.reverse).reverse)
  | [] => rfl
  | [x] => rfl
  | x :: y :: rest => by
    rw [intercalateNl_cons2 x y rest, List.reverse_append, List.reverse_cons,
      List.append_assoc, intercalate_reverse (y :: rest)]
    rw [show ((x :: y :: rest).map List.reverse : List (List Char))
        = x.reverse :: (y :: rest).map List.reverse from rfl]
    rw [List.reverse_cons,
      intercalate_append_single (((y :: rest).map List.reverse).reverse) x.reverse
        (by simp)]
    simp

/-- Dropping leading whitespace distributes over append when the first part
is not all whitespace. -/
theorem dropWhile_append_of_not_allws :
    ∀ {a : List Char}, ¬ AllWs a → ∀ b : List Char,
      List.dropWhile pyIsSpace (a ++ b) = List.dropWhile pyIsSpace a ++ b
  | [], h, _ => absurd (fun c hc => absurd hc (List.not_mem_nil c)) h
  | c :: a', h, b => by
    by_cases hc : pyIsSpace c = true
    · have ha' : ¬ AllWs a' := by
        intro hA
        exact h (fun d hd => by
          rcases List.mem_cons.mp hd with rfl | hd
          · exact hc
          · exact hA d hd)
      rw [List.cons_append, List.dropWhile_cons, if_pos hc, List.dropWhile_cons,
        if_pos hc]
      exact dropWhile_append_of_not_allws ha' b
    · rw [List.cons_append, List.dropWhile_cons, if_neg hc, List.dropWhile_cons,
        if_neg hc, List.cons_append]

/-- Characters surviving `dropWhile` come from the original list. -/
theorem mem_of_mem_dropWhile {p : Char → Bool} :
    ∀ {s : List Char} {c : Char}, c ∈ List.dropWhile p s → c ∈ s
  | [], c, h => h
  | d :: s', c, h => by
    rw [List.dropWhile_cons] at h
    by_cases hd : p d = true
    · rw [if_pos hd] at h
      exact List.mem_cons_of_mem d (mem_of_mem_dropWhile h)
    · rw [if_neg hd] at h
      exact h

/-- End-trimming equals reversed forward-trimming. -/
theorem dropEndWs_eq_reverse : ∀ y : List Char,
    dropEndWsL y = (List.dropWhile pyIsSpace y.reverse).reverse
  | [] => rfl
  | c :: rest => by
    rw [dropEndWs_cons c rest]
    rcases hr : dropEndWsL rest with _ | ⟨x, xs⟩
    · have hall : AllWs rest := allws_of_dropEndWs_nil hr
      have hrev : AllWs rest.reverse := fun d hd => hall d (List.mem_reverse.mp hd)
      rw [List.reverse_cons, dropWhile_allws_append hrev [c]]
      by_cases hc : pyIsSpace c = true <;> simp [List.dropWhile_cons, hc]
    · have ih := dropEndWs_eq_reverse rest
      rw [hr] at ih
      have hne : List.dropWhile pyIsSpace rest.reverse ≠ [] := by
        intro h0
        rw [h0] at ih
        cases ih
      have hnall : ¬ AllWs rest.reverse := fun hA => hne (dropWhile_allws_nil hA)
      rw [List.reverse_cons, dropWhile_append_of_not_allws hnall [c],
        List.reverse_append, ← ih]
      rfl

/-- Structure of `dropWhile` over a newline join: the result is again a
newline join whose pieces are edge-trims of the original pieces. -/
theorem dropWhile_intercalate_structure : ∀ g : List (List Char), g ≠ [] →
    (∀ l ∈ g, '\n' ∉ l) →
    ∃ g', g' ≠ [] ∧ (∀ l ∈ g', '\n' ∉ l)
      ∧ List.dropWhile pyIsSpace (intercalateNlL g) = intercalateNlL g'
      ∧ ∀ l ∈ g', ∃ lo ∈ g, EdgeTrim lo l
  | [], h, _ => absurd rfl h
  | [x], _, hnl => by
    refine ⟨[List.dropWhile pyIsSpace x], by simp, ?_, rfl, ?_⟩
    · intro l hl
      rw [List.mem_singleton.mp hl]
      intro hm
      exact hnl x (List.mem_singleton.mpr rfl) (mem_of_mem_dropWhile hm)
    · intro l hl
      rw [List.mem_singleton.mp hl]
      refine ⟨x, List.mem_singleton.mpr rfl, List.takeWhile pyIsSpace x, [], ?_, ?_, ?_⟩
      · rw [List.append_nil, List.takeWhile_append_dropWhile]
      · intro d hd
        exact List.mem_takeWhile_imp hd
      · intro d hd
        exact absurd hd (List.not_mem_nil d)
  | x :: y :: rest, _, hnl => by
    by_cases hx : AllWs x
    · rcases dropWhile_intercalate_structure (y :: rest) (by simp)
        (fun l hl => hnl l (List.mem_cons_of_mem x hl)) with
        ⟨g', hne, hnl', heq, htrim⟩
      refine ⟨g', hne, hnl', ?_, ?_⟩
      · rw [intercalateNl_cons2, dropWhile_allws_append hx, List.dropWhile_cons,
          if_pos (show pyIsSpace '\n' = true by decide)]
        exact heq
      · intro l hl
        rcases htrim l hl with ⟨lo, hlo, ht⟩
        exact ⟨lo, List.mem_cons_of_mem x hlo, ht⟩
    · refine ⟨List.dropWhile pyIsSpace x :: y :: rest, by simp, ?_, ?_, ?_⟩
      · intro l hl
        rcases List.mem_cons.mp hl with rfl | hl
        · intro hm
          exact hnl x (List.mem_cons_self x _) (mem_of_mem_dropWhile hm)
        · exact hnl l (List.mem_cons_of_mem x hl)
      · rw [intercalateNl_cons2, dropWhile_append_of_not_allws hx, intercalateNl_cons2]
      · intro l hl
        rcases List.mem_cons.mp hl with rfl | hl
        · refine ⟨x, List.mem_cons_self x _, List.takeWhile pyIsSpace x, [], ?_, ?_, ?_⟩
          · rw [List.append_nil, List.takeWhile_append_dropWhile]
          · intro d hd
            exact List.mem_takeWhile_imp hd
          · intro d hd
            exact absurd hd (List.not_mem_nil d)
        · exact ⟨l, List.mem_cons_of_mem x hl, edgeTrim_refl l⟩

/-- Every line of the stripped join of newline-free lines is an edge-trim of
one of the original lines. -/
theorem stripLines_structure (g : List (List Char)) (hg : g ≠ [])
    (hnl : ∀ l ∈ g, '\n' ∉ l) :
    ∀ l ∈ splitLinesL (pyStripL (intercalateNlL g)), ∃ lo ∈ g, EdgeTrim lo l := by
  rcases dropWhile_intercalate_structure g hg hnl with ⟨g1, hg1, hnl1, heq1, htrim1⟩
  have hstep : pyStripL (intercalateNlL g) = dropEndWsL (intercalateNlL g1) := by
    show dropEndWsL (List.dropWhile pyIsSpace (intercalateNlL g)) = _
    rw [heq1]
  set g2 : List (List Char) := (g1.map List.reverse).reverse with hg2def
  have hg2 : g2 ≠ [] := by
    simp [hg2def, hg1]
  have hnl2 : ∀ l ∈ g2, '\n' ∉ l := by
    intro l hl
    rcases List.mem_map.mp (List.mem_reverse.mp hl) with ⟨m, hm, rfl⟩
    intro hc
    exact hnl1 m hm (List.mem_reverse.mp hc)
  have hrev1 : (intercalateNlL g1).reverse = intercalateNlL g2 :=
    intercalate_reverse g1
  rcases dropWhile_intercalate_structure g2 hg2 hnl2 with ⟨g3, hg3, hnl3, heq3, htrim3⟩
  have hstep2 : pyStripL (intercalateNlL g) = (intercalateNlL g3).reverse := by
    rw [hstep, dropEndWs_eq_reverse, hrev1, heq3]
  set g4 : List (List Char) := (g3.map List.reverse).reverse with hg4def
  have hg4 : g4 ≠ [] := by
    simp [hg4def, hg3]
  have hnl4 : ∀ l ∈ g4, '\n' ∉ l := by
    intro l hl
    rcases List.mem_map.mp (List.mem_reverse.mp hl) with ⟨m, hm, rfl⟩
    intro hc
    exact hnl3 m hm (List.mem_reverse.mp hc)
  have hstep3 : pyStripL (intercalateNlL g) = intercalateNlL g4 := by
    rw [hstep2, intercalate_reverse g3]
  intro l hl
  rw [hstep3, splitLines_intercalate g4 hg4 hnl4] at hl
  rcases List.mem_map.mp (List.mem_reverse.mp hl) with ⟨m, hm3, rfl⟩
  rcases htrim3 m hm3 with ⟨lo2, hlo2, ht2⟩
  rcases List.mem_map.mp (List.mem_reverse.mp hlo2) with ⟨lo1, hlo1, rfl⟩
  rcases htrim1 lo1 hlo1 with ⟨lo, hlo, ht1⟩
  refine ⟨lo, hlo, edgeTrim_trans ht1 ?_⟩
  have := edgeTrim_reverse ht2
  rw [List.reverse_reverse] at this
  exact this

/-!  Reconstruction of `split("\n\n\n")` and the bad-word invariant. -/
/-- Joining with the three-newline separator. -/
def intercalate3NlL : List (List Char) → List Char
  | [] => []
  | [x] => x
  | x :: y :: rest => x ++ '\n' :: '\n' :: '\n' :: intercalate3NlL (y :: rest)

/-- The component list of `split3Aux` is never empty. -/
theorem split3Aux_ne_nil : ∀ (s acc : List Char) (p : Nat), split3Aux s acc p ≠ []
  | [], _, _ => by simp [split3Aux]
  | c :: rest, acc, p => by
    show (if c = '\n' then
        if p = 2 then acc.reverse :: split3Aux rest [] 0
        else split3Aux rest acc (p + 1)
      else split3Aux rest (c :: (List.replicate p '\n' ++ acc)) 0) ≠ []
    by_cases hc : c = '\n'
    · by_cases hp : p = 2
      · rw [if_pos hc, if_pos hp]
        simp
      · rw [if_pos hc, if_neg hp]
        exact split3Aux_ne_nil rest acc (p + 1)
    · rw [if_neg hc]
      exact split3Aux_ne_nil rest (c :: (List.replicate p '\n' ++ acc)) 0

/-- `split3Aux` components reassemble to the input. -/
theorem split3_reconstruct : ∀ (s acc : List Char) (p : Nat),
    intercalate3NlL (split3Aux s acc p)
      = acc.reverse ++ (List.replicate p '\n' ++ s)
  | [], acc, p => by
    show intercalate3NlL [acc.reverse ++ List.replicate p '\n']
      = acc.reverse ++ (List.replicate p '\n' ++ [])
    simp [intercalate3NlL]
  | c :: rest, acc, p => by
    show intercalate3NlL
        (if c = '\n' then
          if p = 2 then acc.reverse :: split3Aux rest [] 0
          else split3Aux rest acc (p + 1)
        else split3Aux rest (c :: (List.replicate p '\n' ++ acc)) 0)
      = acc.reverse ++ (List.replicate p '\n' ++ (c :: rest))
    by_cases hc : c = '\n'
    · subst hc
      by_cases hp : p = 2
      · subst hp
        rw [if_pos rfl, if_pos rfl]
        rcases h : split3Aux rest [] 0 with _ | ⟨z, zs⟩
        · exact absurd h (split3Aux_ne_nil rest [] 0)
        · rw [show intercalate3NlL (acc.reverse :: z :: zs)
              = acc.reverse ++ '\n' :: '\n' :: '\n' :: intercalate3NlL (z :: zs)
              from rfl]
          have := split3_reconstruct rest [] 0
          rw [h] at this
          simp only [List.reverse_nil, List.replicate, List.nil_append] at this
          rw [this]
          simp [List.replicate]
      · rw [if_pos rfl, if_neg hp, split3_reconstruct rest acc (p + 1)]
        congr 1
        rw [show List.replicate (p + 1) '\n' = List.replicate p '\n' ++ ['\n'] from by
          rw [List.replicate_succ']
        ]
        simp
    · rw [if_neg hc, split3_reconstruct rest (c :: (List.replicate p '\n' ++ acc)) 0]
      simp [List.replicate]
  termination_by s => s.length

/-- Each `split3Aux` component occurs contiguously in the reassembled
string. -/
theorem subSeg_of_mem_intercalate3 : ∀ (ls : List (List Char)) (l : List Char),
    l ∈ ls → SubSeg l (intercalate3NlL ls)
  | [], l, h => absurd h (List.not_mem_nil l)
  | [x], l, h => by
    rw [List.mem_singleton.mp h]
    exact subSeg_refl x
  | x :: y :: rest, l, h => by
    rcases List.mem_cons.mp h with rfl | h'
    · exact ⟨[], '\n' :: '\n' :: '\n' :: intercalate3NlL (y :: rest), rfl⟩
    · rcases subSeg_of_mem_intercalate3 (y :: rest) l h' with ⟨u, v, huv⟩
      refine ⟨x ++ '\n' :: '\n' :: '\n' :: u, v, ?_⟩
      rw [show intercalate3NlL (x :: y :: rest)
          = x ++ '\n' :: '\n' :: '\n' :: intercalate3NlL (y :: rest) from rfl, huv]
      simp

/-- A component of Python `s.split("\n\n\n")` occurs contiguously in `s`. -/
theorem subSeg_of_mem_split3 {s c0 : List Char} (h : c0 ∈ split3NlL s) :
    SubSeg c0 s := by
  have hrec := split3_reconstruct s [] 0
  simp only [List.reverse_nil, List.replicate, List.nil_append] at hrec
  have := subSeg_of_mem_intercalate3 (split3NlL s) c0 h
  rw [show split3Aux s [] 0 = split3NlL s from rfl] at hrec
  rw [hrec] at this
  exact this

/-- A substring is no longer than its container. -/
theorem subSeg_length {t l : List Char} (h : SubSeg t l) : t.length ≤ l.length := by
  rcases h with ⟨u, v, rfl⟩
  simp
  omega

/-- Outcomes of the per-line filter: either a separator, or the unchanged
line, which then contains no bad word (lowered-substring test). -/
theorem processLineL_some_cases {bad stop : List (List Char)} {minw : Nat}
    {l x : List Char} (h : processLineL bad stop minw l = some x) :
    x = ['\n'] ∨ (x = l ∧ bad.any (fun w => containsSubL w (pyLowerL l)) = false) := by
  unfold processLineL at h
  by_cases h1 : l = ['\n']
  · rw [if_pos h1] at h
    injection h with h'
    exact Or.inl (h'.symm.trans h1)
  · rw [if_neg h1] at h
    by_cases h2 : bad.any (fun w => containsSubL w (pyLowerL l)) = true
    · rw [if_pos h2] at h
      cases h
    · rw [if_neg h2] at h
      by_cases h3 : (pyWordsL (intercalateChL ' '
          ((pyWordsL l).filter (fun w => !(stop.contains (pyLowerL w)))))).length < minw
      · rw [if_pos h3] at h
        injection h with h'
        exact Or.inl h'.symm
      · rw [if_neg h3] at h
        injection h with h'
        exact Or.inr ⟨h'.symm, Bool.eq_false_iff.mpr h2⟩

/-- No output block of the denoiser core contains a configured bad word as a
lowered substring, provided no bad word contains a newline and none is
empty. -/
theorem denoiseCore_no_bad_word {bad stop : List (List Char)} {minw : Nat}
    {cleaned bl w : List Char} (hw : w ∈ bad) (hwnl : '\n' ∉ w) (hwne : w ≠ [])
    (hb : bl ∈ denoiseCoreL bad stop minw cleaned) :
    containsSubL w (pyLowerL bl) = false := by
  rw [Bool.eq_false_iff]
  intro hcon
  have hsub : SubSeg w (pyLowerL bl) := (containsSubL_iff_subSeg _ _).mp hcon
  unfold denoiseCoreL at hb
  rcases List.mem_map.mp hb with ⟨c0, hc0, rfl⟩
  have hc0' : c0 ∈ split3NlL (intercalateChL '\n'
      (processLinesL bad stop minw (splitLinesL cleaned))) :=
    (List.mem_filter.mp hc0).1
  have hsub2 : SubSeg w (pyLowerL c0) :=
    subSeg_trans hsub (subSeg_map Char.toLower (subSeg_strip c0))
  have hsub3 : SubSeg w (pyLowerL (intercalateChL '\n'
      (processLinesL bad stop minw (splitLinesL cleaned)))) :=
    subSeg_trans hsub2 (subSeg_map Char.toLower (subSeg_of_mem_split3 hc0'))
  rw [pyLowerL_intercalate (by decide)] at hsub3
  have hwnl' : '\n' ∉ w := hwnl
  rcases subSeg_intercalate hwnl' _ hsub3 with hnil | ⟨ll, hll, hsubl⟩
  · rw [hnil] at hsub3
    rcases hsub3 with ⟨u, v, huv⟩
    rcases List.append_eq_nil.mp huv.symm with ⟨h1, _⟩
    exact hwne (List.append_eq_nil.mp h1).2
  · rcases List.mem_map.mp hll with ⟨fl, hfl, rfl⟩
    rcases List.mem_filterMap.mp hfl with ⟨l0, _, hproc⟩
    rcases processLineL_some_cases hproc with rfl | ⟨rfl, hnobad⟩
    · have hlow : pyLowerL ['\n'] = ['\n'] := by decide
      rw [hlow] at hsubl
      rcases hsubl with ⟨u, v, huv⟩
      rcases u with _ | ⟨u0, u'⟩
      · rcases w with _ | ⟨w0, w'⟩
        · exact hwne rfl
        · rw [List.nil_append, List.cons_append] at huv
          injection huv with h1 h2
          exact hwnl (h1 ▸ List.mem_cons_self w0 w')
      · rw [List.cons_append] at huv
        injection huv with _ h2
        rcases List.append_eq_nil.mp h2.symm with ⟨h3, _⟩
        exact hwne (List.append_eq_nil.mp h3).2
    · have hcon2 : containsSubL w (pyLowerL fl) = true :=
        (containsSubL_iff_subSeg _ _).mpr hsubl
      have hany2 : bad.any (fun v => containsSubL v (pyLowerL fl)) = true :=
        List.any_eq_true.mpr ⟨w, hw, hcon2⟩
      rw [hnobad] at hany2
      cases hany2

/-- C3 (amended): `HTMLParagraphSplitter.chunk` filters with the hard-coded
default bad word "cookie" (the configured set is ignored); no emitted
paragraph contains "cookie" as a case-insensitive substring. -/
theorem html_paragraph_no_default_bad_word
    (config : SplitterConfig) (fetch : String → Option String)
    (isfile : String → Bool) (readFile : String → String) (data : String)
    (out : List String) (b : String)
    (hout : HTMLParagraphSplitter_chunk config fetch isfile readFile data = some out)
    (hb : b ∈ out) : containsSub (pyLower b) "cookie" = false := by
  unfold HTMLParagraphSplitter_chunk denoise_html at hout
  rcases hfetch : (if pyStartsWith data "http" then fetch data else some data) with
    _ | d0
  · rw [hfetch] at hout
    exact absurd hout (by simp)
  · rw [hfetch] at hout
    simp only [Option.some.injEq] at hout
    subst hout
    rcases List.mem_map.mp hb with ⟨bl, hbl, rfl⟩
    show containsSubL ("cookie".data) (pyLowerL bl) = false
    exact denoiseCore_no_bad_word
      (show "cookie".data ∈ [("cookie" : String).data] from List.mem_singleton.mpr rfl)
      (by decide) (by decide) hbl

/-- C3 witness: a concrete application of the amended bad-word invariant. -/
theorem html_paragraph_no_default_bad_word_witness :
    containsSub (pyLower "wild zebra animals run around fast today") "cookie"
      = false := by
  apply html_paragraph_no_default_bad_word ⟨["zebra"], [], 5⟩ noFetch noFile noRead
    "wild zebra animals run around fast today"
    ["wild zebra animals run around fast today"]
  · rfl
  · simp

/-- String-level idempotence of Python `strip`. -/
theorem pyStrip_idem (s : String) : pyStrip (pyStrip s) = pyStrip s := by
  show (⟨pyStripL (pyStripL s.data)⟩ : String) = ⟨pyStripL s.data⟩
  rw [pyStripL_idem]

/-- A wrapped character list is the empty string only when the list is
empty. -/
theorem stringMk_ne_empty {l : List Char} (h : l ≠ []) : (⟨l⟩ : String) ≠ "" :=
  fun he => h (congrArg String.data he)

/-- C2 (amended): every chunk emitted by `HTMLSentenceSplitter.chunk` and by
`HTMLParagraphSplitter.chunk` is non-empty after whitespace trimming (the
sentence splitter only emits stripped sentences with more than four tokens;
the paragraph splitter filters out blocks that strip to nothing).  The
Markdown sentence splitter does not share this property. -/
theorem html_chunks_nonempty_after_trim :
    (∀ (config : SplitterConfig) (stok : String → List String)
       (fetch : String → Option String) (isfile : String → Bool)
       (readFile : String → String) (data : String) (out : List String) (c : String),
       HTMLSentenceSplitter_chunk config stok fetch isfile readFile data = some out →
       c ∈ out → pyStrip c ≠ "") ∧
    (∀ (config : SplitterConfig) (fetch : String → Option String)
       (isfile : String → Bool) (readFile : String → String) (data : String)
       (out : List String) (b : String),
       HTMLParagraphSplitter_chunk config fetch isfile readFile data = some out →
       b ∈ out → pyStrip b ≠ "") := by
  have hpara : ∀ (config : SplitterConfig) (fetch : String → Option String)
      (isfile : String → Bool) (readFile : String → String) (data : String)
      (out : List String) (b : String),
      HTMLParagraphSplitter_chunk config fetch isfile readFile data = some out →
      b ∈ out → pyStrip b ≠ "" := by
    intro config fetch isfile readFile data out b hout hb
    unfold HTMLParagraphSplitter_chunk denoise_html at hout
    rcases hfetch : (if pyStartsWith data "http" then fetch data else some data) with
      _ | d0
    · rw [hfetch] at hout
      exact absurd hout (by simp)
    · rw [hfetch] at hout
      simp only [Option.some.injEq] at hout
      subst hout
      rcases List.mem_map.mp hb with ⟨bl, hbl, rfl⟩
      unfold denoiseCoreL at hbl
      rcases List.mem_map.mp hbl with ⟨c0, hc0, rfl⟩
      have hne : pyStripL c0 ≠ [] := by
        have := (List.mem_filter.mp hc0).2
        simpa using this
      show (⟨pyStripL (pyStripL c0)⟩ : String) ≠ ""
      rw [pyStripL_idem]
      exact stringMk_ne_empty hne
  refine ⟨?_, hpara⟩
  intro config stok fetch isfile readFile data out c hout hc
  unfold HTMLSentenceSplitter_chunk at hout
  rcases Option.map_eq_some'.mp hout with ⟨paras, _, rfl⟩
  rcases List.mem_flatMap.mp hc with ⟨ch, _, hc2⟩
  rcases List.mem_flatMap.mp hc2 with ⟨p, _, hc3⟩
  rcases List.mem_filterMap.mp hc3 with ⟨st, _, hcond⟩
  by_cases hg : st ≠ "" ∧ 4 < (pyWords st).length
  · rw [if_pos hg] at hcond
    injection hcond with hcond
    subst hcond
    rw [pyStrip_idem]
    apply stringMk_ne_empty
    apply pyStripL_ne_nil_of_words
    intro hwnil
    have hlen : (pyWords st).length = 0 := by
      unfold pyWords
      rw [hwnil]
      rfl
    omega
  · rw [if_neg hg] at hcond
    cases hcond

/-- C2 witness: a concrete sentence chunk that is non-empty after
trimming. -/
theorem html_chunks_nonempty_after_trim_witness :
    pyStrip "alpha beta gamma delta epsilon" ≠ "" := by
  apply html_chunks_nonempty_after_trim.1 ⟨[], [], 0⟩ (fun p => [p]) noFetch noFile
    noRead "alpha beta gamma delta epsilon" ["alpha beta gamma delta epsilon"]
  · rfl
  · simp

/-!  Specification of the final block assembly of `denoise_html`: joining the
filtered lines with `"\n"`, splitting at `"\n\n\n"`, stripping and dropping
empty blocks is equivalent to grouping the kept lines at the separators.  -/
/-- Strip each component and drop the ones that strip to nothing (the final
list comprehension of `denoise_html`). -/
def sfF (cs : List (List Char)) : List (List Char) :=
  (cs.map pyStripL).filter (fun l => l ≠ [])

/-- Unfolding of `sfF` on a cons cell. -/
theorem sfF_cons (x : List Char) (xs : List (List Char)) :
    sfF (x :: xs) = if pyStripL x = [] then sfF xs else pyStripL x :: sfF xs := by
  unfold sfF
  rw [List.map_cons, List.filter_cons]
  by_cases h : pyStripL x = [] <;> simp [h]

/-- The source's filter-then-map form equals `sfF`. -/
theorem filter_map_strip_eq_sfF : ∀ xs : List (List Char),
    (xs.filter (fun l => pyStripL l ≠ [])).map pyStripL = sfF xs
  | [] => rfl
  | x :: xs => by
    have ih := filter_map_strip_eq_sfF xs
    rw [sfF_cons]
    by_cases h : pyStripL x = []
    · rw [if_pos h, ← ih]
      simp [List.filter_cons, h]
    · rw [if_neg h, ← ih]
      simp [List.filter_cons, h]

/-- Membership in `sfF`. -/
theorem mem_sfF {x : List Char} {xs : List (List Char)} (h : x ∈ sfF xs) :
    ∃ y ∈ xs, x = pyStripL y ∧ x ≠ [] := by
  unfold sfF at h
  rcases List.mem_filter.mp h with ⟨hmem, hne⟩
  rcases List.mem_map.mp hmem with ⟨y, hy, rfl⟩
  exact ⟨y, hy, rfl, by simpa using hne⟩

/-- Group the filtered lines at the separator entries `"\n"` (the grouping
that `"\n".join` + `split("\n\n\n")` realizes). -/
def groupsFls : List (List Char) → List (List (List Char))
  | [] => [[]]
  | fl :: rest =>
    if fl = ['\n'] then [] :: groupsFls rest
    else
      match groupsFls rest with
      | g :: gs => (fl :: g) :: gs
      | [] => [[fl]]

/-- `groupsFls` never returns the empty list. -/
theorem groupsFls_ne_nil : ∀ fls : List (List Char), groupsFls fls ≠ []
  | [] => by simp [groupsFls]
  | fl :: rest => by
    unfold groupsFls
    by_cases h : fl = ['\n']
    · simp [h]
    · rw [if_neg h]
      rcases groupsFls rest with _ | ⟨g, gs⟩ <;> simp

/-- Elements of the groups are non-separator entries of the original
list. -/
theorem groupsFls_mem : ∀ (fls : List (List Char)) (g : List (List Char)),
    g ∈ groupsFls fls → ∀ l ∈ g, l ∈ fls ∧ l ≠ ['\n']
  | [], g, hg, l, hl => by
    simp only [groupsFls, List.mem_singleton] at hg
    subst hg
    exact absurd hl (List.not_mem_nil l)
  | fl :: rest, g, hg, l, hl => by
    unfold groupsFls at hg
    by_cases h : fl = ['\n']
    · rw [if_pos h] at hg
      rcases List.mem_cons.mp hg with rfl | hg
      · exact absurd hl (List.not_mem_nil l)
      · rcases groupsFls_mem rest g hg l hl with ⟨h1, h2⟩
        exact ⟨List.mem_cons_of_mem fl h1, h2⟩
    · rw [if_neg h] at hg
      rcases hrest : groupsFls rest with _ | ⟨g0, gs⟩
      · exact absurd hrest (groupsFls_ne_nil rest)
      · rw [hrest] at hg
        rcases List.mem_cons.mp hg with rfl | hg
        · rcases List.mem_cons.mp hl with rfl | hl
          · exact ⟨List.mem_cons_self l rest, h⟩
          · rcases groupsFls_mem rest g0 (hrest ▸ List.mem_cons_self g0 gs) l hl with
              ⟨h1, h2⟩
            exact ⟨List.mem_cons_of_mem fl h1, h2⟩
        · rcases groupsFls_mem rest g (hrest ▸ List.mem_cons_of_mem g0 hg) l hl with
            ⟨h1, h2⟩
          exact ⟨List.mem_cons_of_mem fl h1, h2⟩

/-- With no separator entries there is a single group. -/
theorem groupsFls_no_sep : ∀ fls : List (List Char),
    (∀ l ∈ fls, l ≠ ['\n']) → groupsFls fls = [fls]
  | [], _ => rfl
  | fl :: rest, h => by
    unfold groupsFls
    rw [if_neg (h fl (List.mem_cons_self fl rest)),
      groupsFls_no_sep rest (fun l hl => h l (List.mem_cons_of_mem fl hl))]

/-- The expected blocks: the first group extended to the left by the pending
prefix `pre`, the remaining groups joined as they stand. -/
def blocksWithPre (pre : List Char) (fls : List (List Char)) : List (List Char) :=
  match groupsFls fls with
  | [] => [pre]
  | g :: gs => (pre ++ intercalateNlL g) :: gs.map intercalateNlL

/-- With no pending prefix the expected blocks are just the joined groups. -/
theorem blocksWithPre_nil (fls : List (List Char)) :
    blocksWithPre [] fls = (groupsFls fls).map intercalateNlL := by
  unfold blocksWithPre
  rcases h : groupsFls fls with _ | ⟨g, gs⟩
  · exact absurd h (groupsFls_ne_nil fls)
  · simp

/-- Unfolding equation for `split3Aux` on a cons cell. -/
theorem split3Aux_cons (c : Char) (rest acc : List Char) (p : Nat) :
    split3Aux (c :: rest) acc p
      = if c = '\n' then
          if p = 2 then acc.reverse :: split3Aux rest [] 0
          else split3Aux rest acc (p + 1)
        else split3Aux rest (c :: (List.replicate p '\n' ++ acc)) 0 := rfl

/-- Unfolding equation for `split3Aux` at the end of input. -/
theorem split3Aux_nil (acc : List Char) (p : Nat) :
    split3Aux [] acc p = [acc.reverse ++ List.replicate p '\n'] := rfl

/-- The automaton walks through a newline-free segment accumulating it. -/
theorem split3_walk0 : ∀ (el : List Char), '\n' ∉ el → ∀ (z acc : List Char),
    split3Aux (el ++ z) acc 0 = split3Aux z (el.reverse ++ acc) 0
  | [], _, z, acc => by simp
  | e :: el', h, z, acc => by
    have he : e ≠ '\n' := fun hh => h (hh ▸ List.mem_cons_self e el')
    rw [List.cons_append, split3Aux_cons, if_neg he]
    rw [show List.replicate 0 '\n' ++ acc = acc from rfl]
    rw [split3_walk0 el' (fun hm => h (List.mem_cons_of_mem e hm)) z (e :: acc)]
    rw [List.reverse_cons, List.append_assoc]
    rfl

/-- Walking through a non-empty newline-free segment first flushes the
pending newlines. -/
theorem split3_walkFlush (el : List Char) (hnl : '\n' ∉ el) (hne : el ≠ [])
    (z acc : List Char) (p : Nat) :
    split3Aux (el ++ z) acc p
      = split3Aux z (el.reverse ++ (List.replicate p '\n' ++ acc)) 0 := by
  rcases el with _ | ⟨e, el'⟩
  · exact absurd rfl hne
  · have he : e ≠ '\n' := fun hh => hnl (hh ▸ List.mem_cons_self e el')
    rw [List.cons_append, split3Aux_cons, if_neg he,
      split3_walk0 el' (fun hm => hnl (List.mem_cons_of_mem e hm)) z
        (e :: (List.replicate p '\n' ++ acc)),
      List.reverse_cons, List.append_assoc]
    rfl

/-- Extending the pending prefix by one element and the joining newline does
not change the stripped-filtered blocks. -/
theorem blocks_elem_step (pre fl : List Char) (hfl : fl ≠ ['\n'])
    (rest : List (List Char)) :
    sfF (blocksWithPre ((pre ++ fl) ++ ['\n']) rest)
      = sfF (blocksWithPre pre (fl :: rest)) := by
  have hws : AllWs ['\n'] := fun c hc => by
    rw [List.mem_singleton.mp hc]
    decide
  unfold blocksWithPre
  rw [show groupsFls (fl :: rest)
      = match groupsFls rest with
        | g :: gs => (fl :: g) :: gs
        | [] => [[fl]] from by rw [groupsFls, if_neg hfl]]
  rcases h : groupsFls rest with _ | ⟨g, gs⟩
  · exact absurd h (groupsFls_ne_nil rest)
  · rcases g with _ | ⟨h0, t0⟩
    · show sfF ((((pre ++ fl) ++ ['\n']) ++ intercalateNlL ([] : List (List Char)))
          :: List.map intercalateNlL gs)
        = sfF ((pre ++ intercalateNlL [fl]) :: List.map intercalateNlL gs)
      rw [sfF_cons, sfF_cons]
      have e1 : pyStripL (((pre ++ fl) ++ ['\n']) ++ intercalateNlL ([] : List (List Char)))
          = pyStripL (pre ++ intercalateNlL [fl]) := by
        rw [show intercalateNlL ([] : List (List Char)) = [] from rfl,
          show intercalateNlL [fl] = fl from rfl, List.append_nil,
          pyStripL_append_ws hws]
      rw [e1]
    · show sfF ((((pre ++ fl) ++ ['\n']) ++ intercalateNlL (h0 :: t0))
          :: List.map intercalateNlL gs)
        = sfF ((pre ++ intercalateNlL (fl :: h0 :: t0)) :: List.map intercalateNlL gs)
      have e2 : ((pre ++ fl) ++ ['\n']) ++ intercalateNlL (h0 :: t0)
          = pre ++ intercalateNlL (fl :: h0 :: t0) := by
        rw [show intercalateNlL (fl :: h0 :: t0)
            = fl ++ '\n' :: intercalateNlL (h0 :: t0) from rfl]
        simp
      rw [e2]

/-- Equal strips give equal stripped-filtered blocks. -/
theorem sfF_cons_congr {a b : List Char} (h : pyStripL a = pyStripL b)
    (xs : List (List Char)) : sfF (a :: xs) = sfF (b :: xs) := by
  rw [sfF_cons, sfF_cons, h]

/-- The empty list is all whitespace. -/
theorem allWs_nil : AllWs [] := fun c h => absurd h (List.not_mem_nil c)

/-- A newline singleton is all whitespace. -/
theorem allWs_nl1 : AllWs ['\n'] := fun c hc => by
  rw [List.mem_singleton.mp hc]
  decide

/-- Two newlines are all whitespace. -/
theorem allWs_nl2 : AllWs ['\n', '\n'] := fun c hc => by
  rcases List.mem_cons.mp hc with rfl | hc
  · decide
  · rw [List.mem_singleton.mp hc]
    decide

/-- Concatenation preserves all-whitespace. -/
theorem allWs_append {a b : List Char} (ha : AllWs a) (hb : AllWs b) :
    AllWs (a ++ b) := by
  intro c hc
  rcases List.mem_append.mp hc with h | h
  · exact ha c h
  · exact hb c h

/-- An all-whitespace list strips to nothing. -/
theorem allws_strip_nil {pre : List Char} (h : AllWs pre) : pyStripL pre = [] := by
  unfold pyStripL
  rw [dropWhile_allws_nil h]
  rfl

/-- Unfolding equation for `groupsFls` on a cons cell. -/
theorem groupsFls_cons (fl : List Char) (rest : List (List Char)) :
    groupsFls (fl :: rest)
      = if fl = ['\n'] then [] :: groupsFls rest
        else match groupsFls rest with
          | g :: gs => (fl :: g) :: gs
          | [] => [[fl]] := rfl

/-- Newline step at pending 0. -/
theorem step_nl_p0 (t acc : List Char) :
    split3Aux ('\n' :: t) acc 0 = split3Aux t acc 1 := by
  rw [split3Aux_cons, if_pos rfl, if_neg (by decide)]

/-- Newline step at pending 1. -/
theorem step_nl_p1 (t acc : List Char) :
    split3Aux ('\n' :: t) acc 1 = split3Aux t acc 2 := by
  rw [split3Aux_cons, if_pos rfl, if_neg (by decide)]

/-- Newline step at pending 2: the component is cut. -/
theorem step_nl_p2 (t acc : List Char) :
    split3Aux ('\n' :: t) acc 2 = acc.reverse :: split3Aux t [] 0 := by
  rw [split3Aux_cons, if_pos rfl, if_pos rfl]

/-- Running the automaton on a final newline-free segment. -/
theorem split3_walkEnd (el : List Char) (hnl : '\n' ∉ el) (hne : el ≠ [])
    (acc : List Char) (p : Nat) :
    split3Aux el acc p = [acc.reverse ++ (List.replicate p '\n' ++ el)] := by
  conv_lhs => rw [show el = el ++ [] from (List.append_nil el).symm]
  rw [split3_walkFlush el hnl hne [] acc p, split3Aux_nil]
  simp [List.reverse_append, List.reverse_replicate]

/-- Entries of a filtered-line list satisfying `FlsOK` are either the
separator or non-empty newline-free lines. -/
def FlsOK (fls : List (List Char)) : Prop :=
  ∀ fl ∈ fls, fl = ['\n'] ∨ ('\n' ∉ fl ∧ fl ≠ [])

/-- Core equivalence: running the `split("\n\n\n")` automaton over the
newline-join of the filtered lines produces (after strip-and-filter) exactly
the separator-grouped lines, for every reachable automaton state (pending
0 newlines with an all-whitespace accumulated prefix, or pending 1 or 2
newlines with an arbitrary prefix). -/
theorem split3_core_spec : ∀ fls : List (List Char), FlsOK fls →
    (∀ pre : List Char, AllWs pre →
      sfF (split3Aux (intercalateNlL fls) pre.reverse 0) = sfF (blocksWithPre pre fls))
    ∧ (∀ pre : List Char,
      sfF (split3Aux (intercalateNlL fls) pre.reverse 1)
        = sfF (blocksWithPre (pre ++ ['\n']) fls))
    ∧ (∀ pre : List Char,
      sfF (split3Aux (intercalateNlL fls) pre.reverse 2)
        = sfF (blocksWithPre (pre ++ ['\n', '\n']) fls))
  | [], _ => by
    refine ⟨?_, ?_, ?_⟩
    · intro pre _
      rw [show intercalateNlL [] = [] from rfl, split3Aux_nil, List.reverse_reverse]
      rw [show blocksWithPre pre [] = [pre ++ intercalateNlL []] from rfl]
      rw [show intercalateNlL [] = [] from rfl]
      rw [show List.replicate 0 '\n' = [] from rfl]
    · intro pre
      rw [show intercalateNlL [] = [] from rfl, split3Aux_nil, List.reverse_reverse]
      rw [show blocksWithPre (pre ++ ['\n']) [] = [(pre ++ ['\n']) ++ intercalateNlL []]
        from rfl]
      rw [show intercalateNlL [] = [] from rfl]
      rw [show List.replicate 1 '\n' = ['\n'] from rfl, List.append_nil]
    · intro pre
      rw [show intercalateNlL [] = [] from rfl, split3Aux_nil, List.reverse_reverse]
      rw [show blocksWithPre (pre ++ ['\n', '\n']) []
          = [(pre ++ ['\n', '\n']) ++ intercalateNlL []] from rfl]
      rw [show intercalateNlL [] = [] from rfl]
      rw [show List.replicate 2 '\n' = ['\n', '\n'] from rfl, List.append_nil]
  | fl :: rest, hok => by
    have hokrest : FlsOK rest := fun l hl => hok l (List.mem_cons_of_mem fl hl)
    obtain ⟨ihA, ihB, ihC⟩ := split3_core_spec rest hokrest
    by_cases hsep : fl = ['\n']
    · subst hsep
      refine ⟨?_, ?_, ?_⟩
      · -- pending 0, separator entry
        intro pre hpre
        rcases rest with _ | ⟨r0, rest'⟩
        · rw [show intercalateNlL [['\n']] = ['\n'] from rfl, step_nl_p0,
            split3Aux_nil, List.reverse_reverse]
          rw [show blocksWithPre pre [['\n']] = (pre ++ []) :: [[]] from rfl]
          rw [sfF_cons, sfF_cons,
            show List.replicate 1 '\n' = ['\n'] from rfl, List.append_nil,
            pyStripL_append_ws allWs_nl1, allws_strip_nil hpre]
          rw [if_pos rfl, if_pos rfl]
          rfl
        · rw [show intercalateNlL (['\n'] :: r0 :: rest')
              = '\n' :: '\n' :: intercalateNlL (r0 :: rest') from rfl]
          rw [step_nl_p0, step_nl_p1, ihC pre]
          -- both sides are the rest-blocks with an all-whitespace prefix
          rw [show blocksWithPre pre (['\n'] :: r0 :: rest')
              = (pre ++ []) :: (groupsFls (r0 :: rest')).map intercalateNlL from by
            unfold blocksWithPre
            rw [groupsFls_cons, if_pos rfl]
            rcases h : groupsFls (r0 :: rest') with _ | ⟨g, gs⟩
            · exact absurd h (groupsFls_ne_nil _)
            · rfl]
          unfold blocksWithPre
          rcases h : groupsFls (r0 :: rest') with _ | ⟨g, gs⟩
          · exact absurd h (groupsFls_ne_nil _)
          · rw [List.append_nil, List.map_cons, sfF_cons, sfF_cons,
              show (pre ++ ['\n', '\n']) ++ intercalateNlL g
                = (pre ++ ['\n', '\n']) ++ intercalateNlL g from rfl,
              pyStripL_ws_prepend (allWs_append hpre allWs_nl2),
              allws_strip_nil hpre]
            rw [if_pos rfl, sfF_cons]
      · -- pending 1, separator entry
        intro pre
        rcases rest with _ | ⟨r0, rest'⟩
        · rw [show intercalateNlL [['\n']] = ['\n'] from rfl, step_nl_p1,
            split3Aux_nil, List.reverse_reverse]
          rw [show blocksWithPre (pre ++ ['\n']) [['\n']]
              = ((pre ++ ['\n']) ++ []) :: [[]] from rfl]
          rw [sfF_cons, sfF_cons, sfF_cons,
            show List.replicate 2 '\n' = ['\n', '\n'] from rfl, List.append_nil,
            pyStripL_append_ws allWs_nl2, pyStripL_append_ws allWs_nl1,
            allws_strip_nil allWs_nil]
          rw [if_pos rfl]
        · rw [show intercalateNlL (['\n'] :: r0 :: rest')
              = '\n' :: '\n' :: intercalateNlL (r0 :: rest') from rfl]
          rw [step_nl_p1, step_nl_p2, List.reverse_reverse]
          have hA := ihA [] allWs_nil
          rw [List.reverse_nil] at hA
          rw [sfF_cons, hA, blocksWithPre_nil]
          rw [show blocksWithPre (pre ++ ['\n']) (['\n'] :: r0 :: rest')
              = ((pre ++ ['\n']) ++ []) :: (groupsFls (r0 :: rest')).map intercalateNlL
              from by
            unfold blocksWithPre
            rw [groupsFls_cons, if_pos rfl]
            rcases h : groupsFls (r0 :: rest') with _ | ⟨g, gs⟩
            · exact absurd h (groupsFls_ne_nil _)
            · rfl]
          rw [sfF_cons, List.append_nil, pyStripL_append_ws allWs_nl1]
      · -- pending 2, separator entry
        intro pre
        rcases rest with _ | ⟨r0, rest'⟩
        · rw [show intercalateNlL [['\n']] = ['\n'] from rfl, step_nl_p2,
            List.reverse_reverse, split3Aux_nil]
          rw [show blocksWithPre (pre ++ ['\n', '\n']) [['\n']]
              = ((pre ++ ['\n', '\n']) ++ []) :: [[]] from rfl]
          rw [sfF_cons, sfF_cons, sfF_cons, List.reverse_nil,
            show List.replicate 0 '\n' = [] from rfl]
          simp only [List.append_nil]
          rw [pyStripL_append_ws allWs_nl2]
          by_cases hsp : pyStripL pre = [] <;> simp [hsp, sfF] <;> decide
        · rw [show intercalateNlL (['\n'] :: r0 :: rest')
              = '\n' :: '\n' :: intercalateNlL (r0 :: rest') from rfl]
          rw [step_nl_p2, List.reverse_reverse, step_nl_p0]
          have hB := ihB []
          rw [List.reverse_nil, List.nil_append] at hB
          rw [sfF_cons, hB]
          rw [show blocksWithPre (pre ++ ['\n', '\n']) (['\n'] :: r0 :: rest')
              = ((pre ++ ['\n', '\n']) ++ [])
                :: (groupsFls (r0 :: rest')).map intercalateNlL from by
            unfold blocksWithPre
            rw [groupsFls_cons, if_pos rfl]
            rcases h : groupsFls (r0 :: rest') with _ | ⟨g, gs⟩
            · exact absurd h (groupsFls_ne_nil _)
            · rfl]
          rw [sfF_cons, List.append_nil, pyStripL_append_ws allWs_nl2]
          rcases h : groupsFls (r0 :: rest') with _ | ⟨g, gs⟩
          · exact absurd h (groupsFls_ne_nil _)
          · rw [show blocksWithPre ['\n'] (r0 :: rest')
                = (['\n'] ++ intercalateNlL g) :: gs.map intercalateNlL from by
              unfold blocksWithPre
              rw [h]]
            rw [List.map_cons, sfF_cons, sfF_cons, pyStripL_ws_prepend allWs_nl1]
    · -- element entry
      have hfl : '\n' ∉ fl ∧ fl ≠ [] := by
        rcases hok fl (List.mem_cons_self fl rest) with h | h
        · exact absurd h hsep
        · exact h
      refine ⟨?_, ?_, ?_⟩
      · -- pending 0, element entry
        intro pre hpre
        rcases rest with _ | ⟨r0, rest'⟩
        · rw [show intercalateNlL [fl] = fl from rfl,
            split3_walkEnd fl hfl.1 hfl.2, List.reverse_reverse,
            show List.replicate 0 '\n' = [] from rfl, List.nil_append]
          rw [show blocksWithPre pre [fl] = [pre ++ intercalateNlL [fl]] from by
            unfold blocksWithPre
            rw [groupsFls_cons, if_neg hsep]
            rfl]
          rw [show intercalateNlL [fl] = fl from rfl]
        · rw [intercalateNl_cons2, split3_walkFlush fl hfl.1 hfl.2,
            show List.replicate 0 '\n' = [] from rfl, List.nil_append, step_nl_p0]
          have : fl.reverse ++ pre.reverse = (pre ++ fl).reverse := by
            rw [List.reverse_append]
          rw [this, ihB (pre ++ fl), blocks_elem_step pre fl hsep]
      · -- pending 1, element entry
        intro pre
        rcases rest with _ | ⟨r0, rest'⟩
        · rw [show intercalateNlL [fl] = fl from rfl,
            split3_walkEnd fl hfl.1 hfl.2, List.reverse_reverse,
            show List.replicate 1 '\n' = ['\n'] from rfl]
          rw [show blocksWithPre (pre ++ ['\n']) [fl]
              = [(pre ++ ['\n']) ++ intercalateNlL [fl]] from by
            unfold blocksWithPre
            rw [groupsFls_cons, if_neg hsep]
            rfl]
          rw [show intercalateNlL [fl] = fl from rfl, List.append_assoc]
        · rw [intercalateNl_cons2, split3_walkFlush fl hfl.1 hfl.2,
            show List.replicate 1 '\n' = ['\n'] from rfl, step_nl_p0]
          have : fl.reverse ++ (['\n'] ++ pre.reverse)
              = ((pre ++ ['\n']) ++ fl).reverse := by
            rw [List.reverse_append, List.reverse_append]
            simp
          rw [this, ihB ((pre ++ ['\n']) ++ fl), blocks_elem_step (pre ++ ['\n']) fl hsep]
      · -- pending 2, element entry
        intro pre
        rcases rest with _ | ⟨r0, rest'⟩
        · rw [show intercalateNlL [fl] = fl from rfl,
            split3_walkEnd fl hfl.1 hfl.2, List.reverse_reverse,
            show List.replicate 2 '\n' = ['\n', '\n'] from rfl]
          rw [show blocksWithPre (pre ++ ['\n', '\n']) [fl]
              = [(pre ++ ['\n', '\n']) ++ intercalateNlL [fl]] from by
            unfold blocksWithPre
            rw [groupsFls_cons, if_neg hsep]
            rfl]
          rw [show intercalateNlL [fl] = fl from rfl, List.append_assoc]
        · rw [intercalateNl_cons2, split3_walkFlush fl hfl.1 hfl.2,
            show List.replicate 2 '\n' = ['\n', '\n'] from rfl, step_nl_p0]
          have : fl.reverse ++ (['\n', '\n'] ++ pre.reverse)
              = ((pre ++ ['\n', '\n']) ++ fl).reverse := by
            rw [List.reverse_append, List.reverse_append]
            simp
          rw [this, ihB ((pre ++ ['\n', '\n']) ++ fl),
            blocks_elem_step (pre ++ ['\n', '\n']) fl hsep]

/-!  The tag-rewriting pipeline is the identity on strings containing no
`<` character: every pattern begins with a literal `<`. -/
/-- Script/style removal is the identity on `<`-free input. -/
theorem removeTagBlockF_id (ni ct : List Char) :
    ∀ (fuel : Nat) (s : List Char), '<' ∉ s → removeTagBlockF ni ct fuel s = s
  | 0, _, _ => rfl
  | _ + 1, [], _ => rfl
  | fuel + 1, c :: rest, h => by
    have hc : c ≠ '<' := fun hh => h (hh ▸ List.mem_cons_self c rest)
    have hat : removeTagBlockAt ni ct (c :: rest) = none := by
      simp [removeTagBlockAt, hc]
    show (match removeTagBlockAt ni ct (c :: rest) with
      | some after => removeTagBlockF ni ct fuel after
      | none => c :: removeTagBlockF ni ct fuel rest) = c :: rest
    rw [hat]
    exact congrArg (c :: ·)
      (removeTagBlockF_id ni ct fuel rest (fun hm => h (List.mem_cons_of_mem c hm)))

/-- Tag-whitelist filtering is the identity on `<`-free input. -/
theorem stripTagsF_id :
    ∀ (fuel : Nat) (s : List Char), '<' ∉ s → stripTagsF fuel s = s
  | 0, _, _ => rfl
  | _ + 1, [], _ => rfl
  | fuel + 1, c :: rest, h => by
    have hc : c ≠ '<' := fun hh => h (hh ▸ List.mem_cons_self c rest)
    show (if c = '<' then _ else c :: stripTagsF fuel rest) = c :: rest
    rw [if_neg hc]
    exact congrArg (c :: ·)
      (stripTagsF_id fuel rest (fun hm => h (List.mem_cons_of_mem c hm)))

/-- Attribute stripping is the identity on `<`-free input. -/
theorem stripAttrsF_id :
    ∀ (fuel : Nat) (s : List Char), '<' ∉ s → stripAttrsF fuel s = s
  | 0, _, _ => rfl
  | _ + 1, [], _ => rfl
  | fuel + 1, c :: rest, h => by
    have hc : c ≠ '<' := fun hh => h (hh ▸ List.mem_cons_self c rest)
    show (if c = '<' then _ else c :: stripAttrsF fuel rest) = c :: rest
    rw [if_neg hc]
    exact congrArg (c :: ·)
      (stripAttrsF_id fuel rest (fun hm => h (List.mem_cons_of_mem c hm)))

/-- Open-tag rewriting is the identity on `<`-free input. -/
theorem rewriteOpenTagF_id (ni repl : List Char) :
    ∀ (fuel : Nat) (s : List Char), '<' ∉ s → rewriteOpenTagF ni repl fuel s = s
  | 0, _, _ => rfl
  | _ + 1, [], _ => rfl
  | fuel + 1, c :: rest, h => by
    have hc : c ≠ '<' := fun hh => h (hh ▸ List.mem_cons_self c rest)
    show (if c = '<' then _ else c :: rewriteOpenTagF ni repl fuel rest) = c :: rest
    rw [if_neg hc]
    exact congrArg (c :: ·)
      (rewriteOpenTagF_id ni repl fuel rest (fun hm => h (List.mem_cons_of_mem c hm)))

/-- Literal-pattern rewriting is the identity on `<`-free input. -/
theorem rewriteLiteralF_id (pi repl : List Char) :
    ∀ (fuel : Nat) (s : List Char), '<' ∉ s → rewriteLiteralF pi repl fuel s = s
  | 0, _, _ => rfl
  | _ + 1, [], _ => rfl
  | fuel + 1, c :: rest, h => by
    have hc : c ≠ '<' := fun hh => h (hh ▸ List.mem_cons_self c rest)
    show (if c = '<' then _ else c :: rewriteLiteralF pi repl fuel rest) = c :: rest
    rw [if_neg hc]
    exact congrArg (c :: ·)
      (rewriteLiteralF_id pi repl fuel rest (fun hm => h (List.mem_cons_of_mem c hm)))

/-- Break-tag rewriting is the identity on `<`-free input. -/
theorem rewriteBrF_id :
    ∀ (fuel : Nat) (s : List Char), '<' ∉ s → rewriteBrF fuel s = s
  | 0, _, _ => rfl
  | _ + 1, [], _ => rfl
  | fuel + 1, c :: rest, h => by
    have hc : c ≠ '<' := fun hh => h (hh ▸ List.mem_cons_self c rest)
    have hat : matchBrAt (c :: rest) = none := by
      simp [matchBrAt, hc]
    show (match matchBrAt (c :: rest) with
      | some after => '\n' :: rewriteBrF fuel after
      | none => c :: rewriteBrF fuel rest) = c :: rest
    rw [hat]
    exact congrArg (c :: ·)
      (rewriteBrF_id fuel rest (fun hm => h (List.mem_cons_of_mem c hm)))

/-- Header/paragraph-pair rewriting is the identity on `<`-free input. -/
theorem rewritePairF_id (ni ct : List Char) :
    ∀ (fuel : Nat) (s : List Char), '<' ∉ s → rewritePairF ni ct fuel s = s
  | 0, _, _ => rfl
  | _ + 1, [], _ => rfl
  | fuel + 1, c :: rest, h => by
    have hc : c ≠ '<' := fun hh => h (hh ▸ List.mem_cons_self c rest)
    have hat : matchPairAt ni ct (c :: rest) = none := by
      simp [matchPairAt, hc]
    show (match matchPairAt ni ct (c :: rest) with
      | some (inner, after) => '\n' :: '\n' :: inner ++ rewritePairF ni ct fuel after
      | none => c :: rewritePairF ni ct fuel rest) = c :: rest
    rw [hat]
    exact congrArg (c :: ·)
      (rewritePairF_id ni ct fuel rest (fun hm => h (List.mem_cons_of_mem c hm)))

/-- The whole tag-rewriting pipeline is the identity on `<`-free input. -/
theorem denoiseRegexPhase_id {s : List Char} (h : '<' ∉ s) :
    denoiseRegexPhase s = s := by
  unfold denoiseRegexPhase removeTagBlock applyLen
  rw [removeTagBlockF_id ("script".data) ("</script>".data) _ s h,
    removeTagBlockF_id ("style".data) ("</style>".data) _ s h,
    stripTagsF_id _ s h, stripAttrsF_id _ s h,
    rewriteOpenTagF_id ("div".data) ['\n'] _ s h,
    rewriteLiteralF_id ("/div>".data) ['\n'] _ s h,
    rewriteBrF_id _ s h,
    rewritePairF_id ("h1".data) ("</h1>".data) _ s h,
    rewritePairF_id ("h2".data) ("</h2>".data) _ s h,
    rewritePairF_id ("h3".data) ("</h3>".data) _ s h,
    rewritePairF_id ("h4".data) ("</h4>".data) _ s h,
    rewritePairF_id ("h5".data) ("</h5>".data) _ s h,
    rewritePairF_id ("h6".data) ("</h6>".data) _ s h,
    rewritePairF_id ("p".data) ("</p>".data) _ s h]

/-- The stopword-excluded word count computed by the line filter. -/
def stopNormCount (stop : List (List Char)) (l : List Char) : Nat :=
  (pyWordsL (intercalateChL ' '
    ((pyWordsL l).filter (fun w => !(stop.contains (pyLowerL w)))))).length

/-- A line kept unchanged by the filter contains no bad word and meets the
minimum stopword-excluded word count. -/
theorem processLineL_some_kept {bad stop : List (List Char)} {minw : Nat}
    {l x : List Char} (h : processLineL bad stop minw l = some x)
    (hx : x ≠ ['\n']) :
    x = l ∧ bad.any (fun w => containsSubL w (pyLowerL l)) = false
      ∧ minw ≤ stopNormCount stop l := by
  unfold processLineL at h
  by_cases h1 : l = ['\n']
  · rw [if_pos h1] at h
    injection h with h'
    exact absurd (h'.symm.trans h1) hx
  · rw [if_neg h1] at h
    by_cases h2 : bad.any (fun w => containsSubL w (pyLowerL l)) = true
    · rw [if_pos h2] at h
      cases h
    · rw [if_neg h2] at h
      by_cases h3 : (pyWordsL (intercalateChL ' '
          ((pyWordsL l).filter (fun w => !(stop.contains (pyLowerL w)))))).length < minw
      · rw [if_pos h3] at h
        injection h with h'
        exact absurd h'.symm hx
      · rw [if_neg h3] at h
        injection h with h'
        exact ⟨h'.symm, Bool.eq_false_iff.mpr h2, Nat.le_of_not_lt h3⟩

/-- A line meeting a positive minimum count is non-empty. -/
theorem ne_nil_of_stopNormCount {stop : List (List Char)} {l : List Char}
    {minw : Nat} (hm : 1 ≤ minw) (h : minw ≤ stopNormCount stop l) : l ≠ [] := by
  intro hnil
  subst hnil
  simp [stopNormCount, pyWordsL, wordsAux, intercalateChL] at h
  omega

/-- The filtered lines of any input satisfy `FlsOK` when `min_words` is
positive. -/
theorem processLines_flsOK {bad stop : List (List Char)} {minw : Nat}
    (hminw : 1 ≤ minw) (s : List Char) :
    FlsOK (processLinesL bad stop minw (splitLinesL s)) := by
  intro fl hfl
  rcases List.mem_filterMap.mp hfl with ⟨l0, hl0, hproc⟩
  by_cases hx : fl = ['\n']
  · exact Or.inl hx
  · rcases processLineL_some_kept hproc hx with ⟨rfl, _, hcount⟩
    exact Or.inr ⟨splitLinesL_no_nl _ _ hl0, ne_nil_of_stopNormCount hminw hcount⟩

/-- The stopword-excluded count is invariant under whitespace
edge-trimming. -/
theorem stopNormCount_edgeTrim (stop : List (List Char)) {lo l : List Char}
    (ht : EdgeTrim lo l) : stopNormCount stop lo = stopNormCount stop l := by
  unfold stopNormCount
  rw [pyWordsL_edgeTrim ht]

/-- Freedom from bad words is inherited by whitespace edge-trims. -/
theorem noBad_edgeTrim {bad : List (List Char)} {lo l : List Char}
    (ht : EdgeTrim lo l)
    (h : bad.any (fun w => containsSubL w (pyLowerL lo)) = false) :
    bad.any (fun w => containsSubL w (pyLowerL l)) = false := by
  rw [Bool.eq_false_iff]
  intro hany
  rcases List.any_eq_true.mp hany with ⟨w, hw, hc⟩
  have hsub : SubSeg w (pyLowerL l) := (containsSubL_iff_subSeg _ _).mp hc
  have hsub2 : SubSeg w (pyLowerL lo) :=
    subSeg_trans hsub (subSeg_map Char.toLower (subSeg_of_edgeTrim ht))
  have : bad.any (fun v => containsSubL v (pyLowerL lo)) = true :=
    List.any_eq_true.mpr ⟨w, hw, (containsSubL_iff_subSeg _ _).mpr hsub2⟩
  rw [h] at this
  cases this

/-- A newline-free line without bad words that meets the minimum count is
kept unchanged by the filter. -/
theorem processLineL_keeps {bad stop : List (List Char)} {minw : Nat}
    {l : List Char} (hnl : '\n' ∉ l)
    (hb : bad.any (fun w => containsSubL w (pyLowerL l)) = false)
    (hc : minw ≤ stopNormCount stop l) :
    processLineL bad stop minw l = some l := by
  unfold processLineL
  rw [if_neg (show l ≠ ['\n'] from fun he =>
        hnl (by rw [he]; exact List.mem_cons_self '\n' [])),
    if_neg (show ¬ bad.any (fun w => containsSubL w (pyLowerL l)) = true from by
      rw [hb]; exact Bool.false_ne_true)]
  exact if_neg (Nat.not_lt.mpr hc)

/-- `filterMap` with a pointwise-identity function is the identity. -/
theorem filterMap_id_of_some {α : Type} {f : α → Option α} :
    ∀ l : List α, (∀ x ∈ l, f x = some x) → l.filterMap f = l
  | [], _ => rfl
  | x :: xs, h => by
    rw [List.filterMap_cons, h x (List.mem_cons_self x xs),
      filterMap_id_of_some xs (fun y hy => h y (List.mem_cons_of_mem x hy))]

/-- Invariant of the denoiser-core output blocks: every block is non-empty,
already stripped, and each of its lines is newline-free, free of bad words,
and meets the minimum stopword-excluded word count. -/
theorem denoiseCore_block_lines {bad stop : List (List Char)} {minw : Nat}
    {cleaned bl : List Char} (hminw : 1 ≤ minw)
    (hb : bl ∈ denoiseCoreL bad stop minw cleaned) :
    bl ≠ [] ∧ pyStripL bl = bl
      ∧ ∀ l ∈ splitLinesL bl,
          '\n' ∉ l ∧ bad.any (fun w => containsSubL w (pyLowerL l)) = false
            ∧ minw ≤ stopNormCount stop l := by
  unfold denoiseCoreL at hb
  rw [filter_map_strip_eq_sfF] at hb
  have hok : FlsOK (processLinesL bad stop minw (splitLinesL cleaned)) :=
    processLines_flsOK hminw cleaned
  have hspec := (split3_core_spec _ hok).1 [] allWs_nil
  rw [List.reverse_nil] at hspec
  rw [show split3NlL (intercalateChL '\n'
        (processLinesL bad stop minw (splitLinesL cleaned)))
      = split3Aux (intercalateNlL
        (processLinesL bad stop minw (splitLinesL cleaned))) [] 0 from rfl] at hb
  rw [hspec, blocksWithPre_nil] at hb
  rcases mem_sfF hb with ⟨jg, hjg, rfl, hne⟩
  rcases List.mem_map.mp hjg with ⟨g, hg, rfl⟩
  have hgne : g ≠ [] := by
    intro h0
    subst h0
    exact hne rfl
  have hnlg : ∀ l ∈ g, '\n' ∉ l := by
    intro l hl
    rcases groupsFls_mem _ g hg l hl with ⟨hmem, hnsep⟩
    rcases hok l hmem with h | h
    · exact absurd h hnsep
    · exact h.1
  refine ⟨hne, pyStripL_idem _, ?_⟩
  intro l hl
  rcases stripLines_structure g hgne hnlg l hl with ⟨lo, hlo, ht⟩
  rcases groupsFls_mem _ g hg lo hlo with ⟨hmem, hnsep⟩
  rcases List.mem_filterMap.mp hmem with ⟨l0, _, hproc⟩
  rcases processLineL_some_kept hproc hnsep with ⟨rfl, hnobad, hcount⟩
  refine ⟨?_, noBad_edgeTrim ht hnobad, ?_⟩
  · -- lines of a stripped join of newline-free lines are newline-free
    intro hc
    rcases List.mem_map.mp hjg with _
    exact (splitLinesL_no_nl _ l hl) hc
  · rw [← stopNormCount_edgeTrim stop ht]
    exact hcount

/-- C6 (amended): re-running `denoise_html` with default arguments on one of
its own output blocks returns exactly that block, provided the block does
not start with "http" (otherwise it is treated as a URL and fetched), is not
an existing file path, and contains no `<` character. -/
theorem denoise_idempotent_on_plain_blocks
    (fetch : String → Option String) (isfile : String → Bool)
    (readFile : String → String) (input : String) (out : List String) (b : String)
    (hout : denoise_html fetch isfile readFile input none none 5 = some out)
    (hb : b ∈ out)
    (hhtml : pyStartsWith b "http" = false)
    (hfile : isfile b = false)
    (htag : '<' ∉ b.data) :
    denoise_html fetch isfile readFile b none none 5 = some [b] := by
  unfold denoise_html at hout
  rcases hfetch : (if pyStartsWith input "http" then fetch input else some input) with
    _ | d0
  · rw [hfetch] at hout
    exact absurd hout (by simp)
  · rw [hfetch] at hout
    simp only [Option.some.injEq] at hout
    subst hout
    rcases List.mem_map.mp hb with ⟨bl, hbl, rfl⟩
    obtain ⟨hne, hstr, hlines⟩ := denoiseCore_block_lines (by omega) hbl
    have hdata : (⟨bl⟩ : String).data = bl := rfl
    unfold denoise_html
    rw [show (if pyStartsWith ⟨bl⟩ "http" then fetch ⟨bl⟩ else some ⟨bl⟩)
        = some (⟨bl⟩ : String) from by rw [hhtml]; rfl]
    show some (List.map String.mk (denoiseCoreL
        (List.map String.data (pyOrList none defaultBadWords))
        (List.map String.data (pyOrList none defaultStopWords)) 5
        (denoiseRegexPhase (if (isfile ⟨bl⟩ && pyEndsWith ⟨bl⟩ ".html") = true
          then readFile ⟨bl⟩ else (⟨bl⟩ : String)).data)))
      = some [(⟨bl⟩ : String)]
    rw [show (if (isfile ⟨bl⟩ && pyEndsWith ⟨bl⟩ ".html") = true
          then readFile ⟨bl⟩ else (⟨bl⟩ : String)) = (⟨bl⟩ : String) from by
      rw [hfile]; rfl]
    rw [hdata, denoiseRegexPhase_id htag]
    have hkeep : ∀ l ∈ splitLinesL bl,
        processLineL ((pyOrList none defaultBadWords).map String.data)
          ((pyOrList none defaultStopWords).map String.data) 5 l = some l := by
      intro l hl
      rcases hlines l hl with ⟨h1, h2, h3⟩
      exact processLineL_keeps h1 h2 h3
    have hok : FlsOK (splitLinesL bl) := by
      intro l hl
      refine Or.inr ⟨splitLinesL_no_nl _ _ hl, ?_⟩
      exact ne_nil_of_stopNormCount (by omega) (hlines l hl).2.2
    have hnosep : ∀ l ∈ splitLinesL bl, l ≠ ['\n'] := by
      intro l hl he
      exact (splitLinesL_no_nl _ _ hl) (he ▸ List.mem_cons_self '\n' [])
    have hspec := (split3_core_spec (splitLinesL bl) hok).1 [] allWs_nil
    rw [List.reverse_nil, intercalate_splitLines bl, blocksWithPre_nil,
      groupsFls_no_sep (splitLinesL bl) hnosep] at hspec
    unfold denoiseCoreL
    rw [show processLinesL ((pyOrList none defaultBadWords).map String.data)
          ((pyOrList none defaultStopWords).map String.data) 5 (splitLinesL bl)
        = splitLinesL bl from filterMap_id_of_some _ hkeep]
    show some (List.map String.mk (List.map pyStripL (List.filter
        (fun l => decide (pyStripL l ≠ []))
        (split3NlL (intercalateChL '\n' (splitLinesL bl))))))
      = some [(⟨bl⟩ : String)]
    rw [show intercalateChL '\n' (splitLinesL bl) = bl from intercalate_splitLines bl]
    rw [filter_map_strip_eq_sfF]
    rw [show split3NlL bl = split3Aux bl [] 0 from rfl, hspec]
    rw [show List.map intercalateNlL [splitLinesL bl] = [bl] from by
      rw [List.map_cons, List.map_nil, intercalate_splitLines bl]]
    rw [sfF_cons, hstr, if_neg hne]
    rfl

/-- C6 witness: a concrete produced block (tag-free, not "http"-prefixed,
not a file) on which the denoiser is the identity. -/
theorem denoise_idempotent_on_plain_blocks_witness :
    denoise_html noFetch noFile noRead "alpha beta gamma delta epsilon"
      none none 5 = some ["alpha beta gamma delta epsilon"] := by
  apply denoise_idempotent_on_plain_blocks noFetch noFile noRead
    "alpha beta gamma delta epsilon" ["alpha beta gamma delta epsilon"]
    "alpha beta gamma delta epsilon" rfl
  · simp
  · rfl
  · rfl
  · decide

end Ovos
